import Mathlib

/-!
Verification of the ESP32 SD-card web server (`components/web_server/web_server.c`)
against its natural-language specification.

The C source manipulates NUL-terminated byte buffers with `strstr`, `strchr`,
`snprintf`, `fwrite` and an HTTP receive loop.  We embed byte strings as
`List Nat` (one `Nat` per byte), C-string truncation at the first NUL as
`cstr`, and `strstr`/`strchr` as the first-occurrence search `findSub` applied
to the NUL-truncated buffer.
-/

/-- A byte string: one natural number (0..255) per byte. -/
abbrev Bytes := List Nat

/-- The content of a buffer viewed as a C string: everything before the first
NUL byte.  Models how `strstr`/`strchr`/`strlen` see a buffer. -/
def cstr (l : Bytes) : Bytes := l.takeWhile (fun b => b ≠ 0)

/-- First index at which `pat` occurs as a contiguous substring of `hay`
(`none` if it does not occur).  This is the core of C `strstr`: at call sites
the haystack (and for `strchr` the one-byte pattern) is first truncated with
`cstr`. -/
def findSub : Bytes → Bytes → Option Nat
  | [], pat => if pat.isPrefixOf ([] : Bytes) then some 0 else none
  | a :: t, pat =>
    if pat.isPrefixOf (a :: t) then some 0
    else (findSub t pat).map (fun n => n + 1)

/-- ASCII bytes of a string literal (all our literals are 7-bit ASCII, where
`Char.toNat` agrees with the UTF-8 byte). -/
def ascii (s : String) : Bytes := s.data.map Char.toNat

-- ### Model of `upload_post_handler` (web_server.c, lines 1197-1763)

/-- Multipart header/body separator `"\r\n\r\n"` (CR LF CR LF). -/
def sepCRLF2 : Bytes := [13, 10, 13, 10]

/-- Events observable during one run of the upload handler, in order:
chunk-buffer allocation, transport receives, `fopen(path, "wb")`, `fwrite`s,
drain receives of the conflict path, `fclose`, and the final JSON response. -/
inductive Ev
  | allocBuf
  | recv (n : Nat)
  | openWb
  | write (bs : Bytes)
  | drainRecv (n : Nat)
  | closeSink
  | respond
  deriving DecidableEq, Repr

/-- JSON `status` field of the handler's response. -/
inductive JStatus
  | success
  | conflict
  | error
  deriving DecidableEq, Repr

/-- The JSON response of the upload handler: whether `httpd_resp_set_status`
was called with "409 Conflict", the `status` field, and the `filename` field
(when present). -/
structure Resp where
  status409 : Bool
  jstatus : JStatus
  jfilename : Option Bytes
  deriving DecidableEq, Repr

/-- Error exits of the handler (the various `goto cleanup_and_send_json`
branches).  All of them produce a JSON response with `status = "error"`. -/
inductive ErrKind
  | noData
  | noContentType
  | noBoundary
  | boundaryTooLong
  | transport
  | missingDisposition
  | missingFilename
  | unterminatedFilename
  | fopenFail
  | noFilenameAtData
  deriving DecidableEq, Repr

/-- Loop state of the receive loop: the extracted filename (`filename`),
whether the sink is open (`fd`), and the `file_data_started` flag. -/
structure LoopSt where
  filename : Option Bytes
  fdOpen : Bool
  dataStarted : Bool
  deriving DecidableEq, Repr

/-- How the receive loop ended: normally (`remaining` exhausted), by an error
`goto`, or by the conflict path (carrying the drained-down counter). -/
inductive LoopOut
  | finished (st : LoopSt)
  | errored (e : ErrKind) (st : LoopSt)
  | conflicted (fname : Bytes) (drainLeft : Int) (st : LoopSt)
  deriving DecidableEq, Repr

/-- Result of the receive loop: outcome, emitted events, the chunks never
requested from the transport, and the final value of `remaining`. -/
structure LoopRes where
  out : LoopOut
  evs : List Ev
  leftover : List Bytes
  remFinal : Int
  deriving DecidableEq, Repr

/-- Result of the filename extraction: the name, or the error branch taken. -/
inductive ParseRes
  | ok (fn : Bytes)
  | err (e : ErrKind)
  deriving DecidableEq, Repr

/-- Extraction of the `filename="..."` attribute from the first chunk
(lines 1356-1377): locate `Content-Disposition:`, then `filename="` after it,
then the closing quote, and cap the name at 128 bytes. -/
def parseFilename (c : Bytes) : ParseRes :=
  let s := cstr c
  match findSub s (ascii "Content-Disposition:") with
  | none => .err .missingDisposition
  | some icd =>
    match findSub (s.drop icd) (ascii "filename=\"") with
    | none => .err .missingFilename
    | some ifn =>
      let start := icd + ifn + 10
      match findSub (s.drop start) [34] with
      | none => .err .unterminatedFilename
      | some e =>
        if 0 < e then .ok ((s.drop start).take (min e 128))
        else .err .unterminatedFilename

/-- Number of payload bytes kept before a boundary found at offset `k` in a
chunk `c` (lines 1550-1564 and 1631-1644): drop a trailing CRLF if present,
else a trailing LF, else keep all `k` bytes. -/
def trimLen (k : Nat) (c : Bytes) : Nat :=
  if 2 ≤ k ∧ c.getD (k - 1) 0 = 10 ∧ c.getD (k - 2) 0 = 13 then k - 2
  else if 1 ≤ k ∧ c.getD (k - 1) 0 = 10 then k - 1
  else k

/-- Processing of one data-bearing byte region `c` against the boundary
(lines 1547-1574 for the first data chunk, 1628-1654 for later chunks):
search the NUL-terminated view of `c` for the boundary; if found, write the
trimmed prefix (when non-empty) and signal termination, else write the whole
region. -/
def streamEvents (B c : Bytes) : List Ev × Bool :=
  match findSub (cstr c) B with
  | some k =>
    let n := trimLen k c
    ((if 0 < n then [Ev.write (c.take n)] else []), true)
  | none =>
    ((if 0 < c.length then [Ev.write c] else []), false)

/-- The conflict-path drain loop (lines 1437-1449): repeatedly receive into a
dummy buffer and decrement `remaining` (clamped at 0) until it reaches zero
or a receive fails (modelled by a 0 entry or exhaustion of `reads`). -/
def drainLoop : Int → List Nat → Int × List Ev
  | rem, [] => (rem, [])
  | rem, r :: rs =>
    if rem ≤ 0 then (rem, [])
    else if r = 0 then (rem, [])
    else
      let d := drainLoop (max (rem - (r : Int)) 0) rs
      (d.1, Ev.drainRecv r :: d.2)

/-- Outcome of the header-region processing of a chunk while
`file_data_started` is false (lines 1533-1620): either an error `goto`, or
continue with the write events of the first data region, the new
`file_data_started` flag, and whether `remaining` was forced to zero. -/
inductive HdrStep
  | toErr (e : ErrKind)
  | cont (evs : List Ev) (dataStarted : Bool) (forceZero : Bool)
  deriving DecidableEq, Repr

/-- Search a header-phase chunk for the `CRLFCRLF` separator and process the
data that follows it in the same chunk (lines 1533-1620). -/
def sepPhase (B : Bytes) (st : LoopSt) (c : Bytes) : HdrStep :=
  match findSub (cstr c) sepCRLF2 with
  | none => .cont [] false false
  | some p =>
    let tail := c.drop (p + 4)
    if st.fdOpen && st.filename.isSome then
      let se := streamEvents B tail
      .cont se.1 true se.2
    else if st.filename.isSome && !st.fdOpen then
      .cont [] true (findSub (cstr tail) B).isSome
    else .toErr .noFilenameAtData

/-- The receive loop of `upload_post_handler` (lines 1308-1689).  Parameters:
boundary `B`, `stat` result `fe` (file exists), overwrite flag `ow`, whether
`fopen` succeeds `fok`, the reads served to the conflict drain `dr`; then the
loop state, the `remaining` counter, and the successive chunks the transport
returns (each `recv` consumes one). -/
def uploadLoop (B : Bytes) (fe ow fok : Bool) (dr : List Nat) :
    LoopSt → Int → List Bytes → LoopRes
  | st, rem, [] =>
    if rem ≤ 0 then ⟨.finished st, [], [], rem⟩
    else ⟨.errored .transport st, [], [], rem⟩
  | st, rem, c :: cs =>
    if rem ≤ 0 then ⟨.finished st, [], c :: cs, rem⟩
    else
      let ret : Int := (c.length : Int)
      if st.dataStarted then
        if st.fdOpen then
          let se := streamEvents B c
          let rem2 := if se.2 then max (0 - ret) 0 else max (rem - ret) 0
          let r := uploadLoop B fe ow fok dr st rem2 cs
          ⟨r.out, Ev.recv c.length :: (se.1 ++ r.evs), r.leftover, r.remFinal⟩
        else
          let found := (findSub (cstr c) B).isSome
          let rem2 := if found then max (0 - ret) 0 else max (rem - ret) 0
          let r := uploadLoop B fe ow fok dr st rem2 cs
          ⟨r.out, Ev.recv c.length :: r.evs, r.leftover, r.remFinal⟩
      else
        match st.filename with
        | some _ =>
          match sepPhase B st c with
          | .toErr e => ⟨.errored e st, [Ev.recv c.length], cs, rem⟩
          | .cont evs ds fz =>
            let st' : LoopSt := { st with dataStarted := ds }
            let rem2 := if fz then max (0 - ret) 0 else max (rem - ret) 0
            let r := uploadLoop B fe ow fok dr st' rem2 cs
            ⟨r.out, Ev.recv c.length :: (evs ++ r.evs), r.leftover, r.remFinal⟩
        | none =>
          match parseFilename c with
          | .err e => ⟨.errored e st, [Ev.recv c.length], cs, rem⟩
          | .ok fn =>
            if fe && !ow then
              let d := drainLoop rem dr
              ⟨.conflicted fn d.1 { st with filename := some fn },
                Ev.recv c.length :: d.2, cs, rem⟩
            else if fok = false then
              ⟨.errored .fopenFail { st with filename := some fn },
                [Ev.recv c.length], cs, rem⟩
            else
              let st1 : LoopSt := ⟨some fn, true, false⟩
              match sepPhase B st1 c with
              | .toErr e => ⟨.errored e st1, [Ev.recv c.length, Ev.openWb], cs, rem⟩
              | .cont evs ds fz =>
                let st' : LoopSt := { st1 with dataStarted := ds }
                let rem2 := if fz then max (0 - ret) 0 else max (rem - ret) 0
                let r := uploadLoop B fe ow fok dr st' rem2 cs
                ⟨r.out, Ev.recv c.length :: Ev.openWb :: (evs ++ r.evs),
                  r.leftover, r.remFinal⟩

/-- `fclose` event on exit when the sink was opened (lines 1696-1700). -/
def closeEvs (st : LoopSt) : List Ev := if st.fdOpen then [Ev.closeSink] else []

/-- Result of one whole invocation of `upload_post_handler`. -/
structure HRes where
  resp : Resp
  trace : List Ev
  leftover : List Bytes
  drainLeft : Option Int
  deriving DecidableEq, Repr

/-- The whole of `upload_post_handler` (lines 1197-1763): Content-Length
check, chunk-buffer allocation, boundary extraction from the Content-Type
header, the receive loop, cleanup and the final JSON response.  `ctHdr` is
the Content-Type header value (`none` when absent or over 200 bytes),
`fe`/`ow`/`fok`/`dr` as in `uploadLoop`. -/
def uploadHandler (contentLen : Int) (ctHdr : Option Bytes) (fe ow fok : Bool)
    (chunks : List Bytes) (dr : List Nat) : HRes :=
  if contentLen ≤ 0 then
    ⟨⟨false, .error, none⟩, [Ev.respond], chunks, none⟩
  else
    match ctHdr with
    | none => ⟨⟨false, .error, none⟩, [Ev.allocBuf, Ev.respond], chunks, none⟩
    | some h =>
      match findSub (cstr h) (ascii "boundary=") with
      | none => ⟨⟨false, .error, none⟩, [Ev.allocBuf, Ev.respond], chunks, none⟩
      | some ib =>
        let bval := (cstr h).drop (ib + 9)
        if 128 ≤ 2 + bval.length then
          ⟨⟨false, .error, none⟩, [Ev.allocBuf, Ev.respond], chunks, none⟩
        else
          let B := [45, 45] ++ bval
          let r := uploadLoop B fe ow fok dr ⟨none, false, false⟩ contentLen chunks
          match r.out with
          | .finished st =>
            if st.filename.isSome && st.fdOpen then
              ⟨⟨false, .success, st.filename⟩,
                Ev.allocBuf :: r.evs ++ closeEvs st ++ [Ev.respond], r.leftover, none⟩
            else
              ⟨⟨false, .error, none⟩,
                Ev.allocBuf :: r.evs ++ closeEvs st ++ [Ev.respond], r.leftover, none⟩
          | .errored _ st =>
            ⟨⟨false, .error, none⟩,
              Ev.allocBuf :: r.evs ++ closeEvs st ++ [Ev.respond], r.leftover, none⟩
          | .conflicted fn dl st =>
            ⟨⟨true, .conflict, some fn⟩,
              Ev.allocBuf :: r.evs ++ closeEvs st ++ [Ev.respond], r.leftover, some dl⟩

/-- Bytes written to the sink: concatenation of all `write` events. -/
def writtenOf (t : List Ev) : Bytes :=
  t.foldr (fun e acc => match e with | Ev.write bs => bs ++ acc | _ => acc) []

/-- Number of body receives performed (drain receives not included). -/
def recvCount (t : List Ev) : Nat :=
  t.countP (fun e => match e with | Ev.recv _ => true | _ => false)

/-- Whether the sink was ever opened. -/
def openedWb (t : List Ev) : Bool :=
  t.any (fun e => match e with | Ev.openWb => true | _ => false)

/-- Whether an event is a `write`. -/
def isWriteEv (e : Ev) : Bool :=
  match e with | Ev.write _ => true | _ => false

/-- Content of the destination file after the handler ran, given its prior
content (`none` = the file did not exist): `fopen(..., "wb")` truncates, so
once the sink is opened the file holds exactly the written bytes. -/
def fileAfter (r : HRes) (old : Option Bytes) : Option Bytes :=
  if openedWb r.trace then some (writtenOf r.trace) else old
-- ### Model of `send_message_response` (web_server.c, lines 350-419)

/-- The chunk-emission loop shared by the template renderers: for each
`(token, value)` pair in order, search the not-yet-emitted remainder of the
document for the token (C-string search, as `strstr` does); if found, emit
the bytes before it and the value (empty emissions are skipped by
`httpd_send_template_chunk`) and advance past the token; if not found, skip
the token.  After the last pair, emit the remaining tail (if non-empty) and
the terminating empty chunk. -/
def renderGo (doc : Bytes) : List (Bytes × Bytes) → List Bytes
  | [] => (if 0 < doc.length then [doc] else []) ++ [[]]
  | (t, v) :: ps =>
    match findSub (cstr doc) (cstr t) with
    | none => renderGo doc ps
    | some p =>
      (if 0 < p then [doc.take p] else []) ++
      (if 0 < (cstr v).length then [cstr v] else []) ++
      renderGo (doc.drop (p + (cstr t).length)) ps

/-- `send_message_response` (lines 350-419): renders the embedded
`message.html` document `doc` with the fixed ordered token list
`%%MESSAGE_TITLE%%`, `%%MESSAGE_CLASS%%`, `%%MESSAGE_TEXT%%` and returns the
emitted chunks (the final `[]` is the terminating empty chunk). -/
def send_message_response (doc title cls text : Bytes) : List Bytes :=
  renderGo doc
    [(ascii "%%MESSAGE_TITLE%%", title),
     (ascii "%%MESSAGE_CLASS%%", cls),
     (ascii "%%MESSAGE_TEXT%%", text)]

/-- Spec-side substitution, following the words of the specification: each
token of the list, in order, is searched only in the remaining (not yet
emitted) portion of the document and replaced at its first occurrence by its
value; a token with no occurrence is skipped. -/
def specSubst (doc : Bytes) : List (Bytes × Bytes) → Bytes
  | [] => doc
  | (t, v) :: ps =>
    match findSub doc t with
    | none => specSubst doc ps
    | some p => doc.take p ++ v ++ specSubst (doc.drop (p + t.length)) ps

-- ### Model of `build_filepath` (web_server.c, lines 196-228)

/-- The `while ((p = strstr(dst, "..")))` sanitisation loop of
`build_filepath`: replace the first occurrence of `".."` by `"__"` and
restart the search from the beginning of the buffer.  The C loop has no fuel;
every iteration replaces two `'.'` bytes (46) by `'_'` (95), so it performs
at most `count '.' / 2 ≤ length` iterations — `sanitizeFuel s.length s`
computes exactly its result (proved below). -/
def sanitizeFuel : Nat → Bytes → Bytes
  | 0, s => s
  | fuel + 1, s =>
    match findSub s [46, 46] with
    | none => s
    | some p => sanitizeFuel fuel (s.take p ++ [95, 95] ++ s.drop (p + 2))

/-- `build_filepath(dst, 256, path1, path2)` (lines 196-228, called with
`dst_size = FILE_PATH_MAX = 256`): `snprintf(dst, 256, "%s/%s", path1,
path2)` truncates the composition to 255 content bytes, then the loop above
replaces every `".."` by `"__"`.  (The `path2 == NULL` branch is not
modelled: callers always pass a non-null name.) -/
def build_filepath (path1 path2 : Bytes) : Bytes :=
  let composed := (cstr path1 ++ [47] ++ cstr path2).take 255
  sanitizeFuel composed.length composed

-- ### Model of the `list_get_handler` row builder (web_server.c, lines 620-852)

/-- Per-character URL encoding of the reserved set (lines 704-753): space,
`(`, `)`, `&`, `=`, `?`, `/` become their two-digit percent escapes, all
other bytes pass through unchanged. -/
def encChar (c : Nat) : Bytes :=
  if c = 32 then [37, 50, 48]
  else if c = 40 then [37, 50, 56]
  else if c = 41 then [37, 50, 57]
  else if c = 38 then [37, 50, 54]
  else if c = 61 then [37, 51, 68]
  else if c = 63 then [37, 51, 70]
  else if c = 47 then [37, 50, 70]
  else [c]

/-- The encoding loop (lines 704-753): processes the C string of the name
while the output cursor is below `sizeof(url_encoded_filename) - 4`
`= 3*256 + 1 - 4 = 765`; once the bound is reached the rest is dropped. -/
def urlEncodeGo : Bytes → Nat → Bytes
  | [], _ => []
  | c :: rest, outLen =>
    if outLen < 765 then encChar c ++ urlEncodeGo rest (outLen + (encChar c).length)
    else []

/-- URL encoding of one directory-entry name for the generated links. -/
def urlEncodeFilename (name : Bytes) : Bytes := urlEncodeGo (cstr name) 0

/-- `entry_html_len_estimate` (lines 669-670): `js_escaped_len_estimate =
2*strlen(name) + 1`, then estimate `= js + 2*strlen(name) + 350`. -/
def estRow (name : Bytes) : Nat := (2 * name.length + 1) + (2 * name.length + 350)

/-- The capacity after the growth check of lines 674-690: when the projected
write would reach the current capacity, `new_size = size + estimate + 1024`. -/
def growCapIfNeeded (len est cap : Nat) : Nat :=
  if cap ≤ len + est then cap + est + 1024 else cap

/-- One formatted table row (lines 762-781): the two links use the
percent-encoded name, each URL truncated by `snprintf` to 511 content bytes;
`"Obriši"` contains the UTF-8 bytes `[197, 161]` for `š`. -/
def rowHtml (name : Bytes) : Bytes :=
  let enc := urlEncodeFilename name
  let durl := (ascii "/download?file=" ++ enc).take 511
  let delurl := (ascii "/delete?file=" ++ enc).take 511
  ascii "<tr><td>" ++ cstr name ++ ascii "</td><td><a href=\"" ++ durl ++
    ascii "\">Preuzmi</a></td><td><a href=\"" ++ delurl ++
    ascii "\" class=\"delete-link\">Obri" ++ [197, 161] ++ ascii "i</a></td></tr>"

/-- The accumulation loop of `list_get_handler` (lines 658-796) restricted to
regular files: for each name, compute the estimate; grow the buffer when the
projected write would exceed capacity (`oks` supplies the outcome of each
`realloc`; on failure `break` with the rows accumulated so far — the `true`
flag records the truncation); then `snprintf` the row, appending it in full
when it fits in the remaining space and clamping to `capacity - 1` bytes
otherwise. -/
def listBuildGo : List Bytes → Bytes → Nat → List Bool → Bytes × Bool
  | [], buf, _, _ => (buf, false)
  | name :: rest, buf, cap, oks =>
    let est := estRow (cstr name)
    if cap ≤ buf.length + est then
      if oks.headD true then
        let cap2 := cap + est + 1024
        let row := rowHtml name
        if row.length < cap2 - buf.length then
          listBuildGo rest (buf ++ row) cap2 oks.tail
        else
          listBuildGo rest (buf ++ row.take (cap2 - buf.length - 1)) cap2 oks.tail
      else (buf, true)
    else
      let row := rowHtml name
      if row.length < cap - buf.length then
        listBuildGo rest (buf ++ row) cap oks
      else
        listBuildGo rest (buf ++ row.take (cap - buf.length - 1)) cap oks

/-- The `%%FILE_LIST_ROWS%%` placeholder of `list.html`. -/
def fileListToken : Bytes := ascii "%%FILE_LIST_ROWS%%"

/-- The chunked emission of the list page (lines 800-839): template before
the placeholder, the accumulated rows, the template after it, then the
terminating empty chunk; empty template chunks are skipped, and a missing
placeholder sends the template unchanged. -/
def listChunks (doc rows : Bytes) : List Bytes :=
  match findSub (cstr doc) fileListToken with
  | some p =>
    (if 0 < p then [doc.take p] else []) ++
    (if 0 < rows.length then [rows] else []) ++
    (if 0 < (doc.drop (p + 18)).length then [doc.drop (p + 18)] else []) ++ [[]]
  | none =>
    (if 0 < doc.length then [doc] else []) ++ [[]]

/-- `list_get_handler` (lines 623-852) for an opened directory listing
`entries`: build the row buffer starting from an empty buffer of capacity
2048, then emit the page. -/
def list_get_handler (doc : Bytes) (entries : List Bytes) (oks : List Bool) :
    List Bytes :=
  listChunks doc (listBuildGo entries [] 2048 oks).1

-- ### Spec-side helpers for the boundary trim rule

/-- The payload kept from the bytes `pre` preceding a boundary, as the
specification words it: minus a trailing CRLF if present, else minus a
trailing LF, else unchanged. -/
def stripTrailingCRLF (pre : Bytes) : Bytes :=
  if [13, 10] <:+ pre then pre.take (pre.length - 2)
  else if [10] <:+ pre then pre.take (pre.length - 1)
  else pre
-- ### Basic lemmas about `cstr` and `findSub`

theorem cstr_eq_self {l : Bytes} (h : 0 ∉ l) : cstr l = l := by
  induction l with
  | nil => rfl
  | cons a t ih =>
    have ha : a ≠ 0 := by intro e; exact h (by simp [e])
    have ht : 0 ∉ t := fun m => h (List.mem_cons_of_mem _ m)
    simp only [cstr, List.takeWhile_cons]
    rw [if_pos (by simpa using ha)]
    have := ih ht
    simp only [cstr] at this
    rw [this]

theorem cstr_append {xs ys : Bytes} (h : 0 ∉ xs) :
    cstr (xs ++ ys) = xs ++ cstr ys := by
  induction xs with
  | nil => rfl
  | cons a t ih =>
    have ha : a ≠ 0 := by intro e; exact h (by simp [e])
    have ht : 0 ∉ t := fun m => h (List.mem_cons_of_mem _ m)
    simp only [cstr, List.cons_append, List.takeWhile_cons]
    rw [if_pos (by simpa using ha)]
    have := ih ht
    simp only [cstr] at this
    rw [this]

theorem isPrefixOf_eq_true_iff {l1 l2 : Bytes} :
    l1.isPrefixOf l2 = true ↔ l1 <+: l2 :=
  List.isPrefixOf_iff_prefix

theorem findSub_some_occurrence {hay pat : Bytes} {k : Nat}
    (h : findSub hay pat = some k) : pat <+: hay.drop k := by
  induction hay generalizing k with
  | nil =>
    simp only [findSub] at h
    split at h
    · rename_i hp
      cases h
      simpa using isPrefixOf_eq_true_iff.mp hp
    · cases h
  | cons a t ih =>
    simp only [findSub] at h
    split at h
    · rename_i hp
      cases h
      simpa using isPrefixOf_eq_true_iff.mp hp
    · rename_i hp
      cases hm : findSub t pat with
      | none => rw [hm] at h; cases h
      | some j =>
        rw [hm] at h
        simp at h
        subst h
        simpa using ih hm

theorem findSub_min {hay pat : Bytes} {k : Nat}
    (h : findSub hay pat = some k) : ∀ j, j < k → ¬ pat <+: hay.drop j := by
  induction hay generalizing k with
  | nil =>
    simp only [findSub] at h
    split at h
    · cases h; intro j hj; omega
    · cases h
  | cons a t ih =>
    simp only [findSub] at h
    split at h
    · cases h; intro j hj; omega
    · rename_i hp
      cases hm : findSub t pat with
      | none => rw [hm] at h; cases h
      | some j0 =>
        rw [hm] at h
        simp at h
        subst h
        intro j hj
        cases j with
        | zero =>
          simp only [List.drop_zero]
          intro hpre
          exact hp (isPrefixOf_eq_true_iff.mpr hpre)
        | succ j' =>
          have := ih hm j' (by omega)
          simpa using this

theorem findSub_eq_some_of {hay pat : Bytes} {k : Nat}
    (h1 : pat <+: hay.drop k) (h2 : ∀ j, j < k → ¬ pat <+: hay.drop j) :
    findSub hay pat = some k := by
  induction hay generalizing k with
  | nil =>
    cases k with
    | zero =>
      simp only [List.drop_zero] at h1
      simp only [findSub]
      rw [if_pos (isPrefixOf_eq_true_iff.mpr h1)]
    | succ k' =>
      exfalso
      have hp : pat = [] := List.prefix_nil.mp (by simpa using h1)
      exact h2 0 (by omega) (by simp [hp])
  | cons a t ih =>
    cases k with
    | zero =>
      simp only [List.drop_zero] at h1
      simp only [findSub]
      rw [if_pos (isPrefixOf_eq_true_iff.mpr h1)]
    | succ k' =>
      have hnp : ¬ pat.isPrefixOf (a :: t) = true := by
        intro hp
        exact h2 0 (by omega) (by simpa using isPrefixOf_eq_true_iff.mp hp)
      simp only [findSub]
      rw [if_neg hnp]
      have h1' : pat <+: t.drop k' := by simpa using h1
      have h2' : ∀ j, j < k' → ¬ pat <+: t.drop j := by
        intro j hj
        have := h2 (j + 1) (by omega)
        simpa using this
      rw [ih h1' h2']
      rfl

theorem findSub_none_iff {hay pat : Bytes} :
    findSub hay pat = none ↔ ∀ j, ¬ pat <+: hay.drop j := by
  constructor
  · intro h j
    induction hay generalizing j with
    | nil =>
      simp only [findSub] at h
      split at h
      · cases h
      · rename_i hp
        simp [List.drop_nil]
        intro hpre
        exact hp (isPrefixOf_eq_true_iff.mpr (by simpa using hpre))
    | cons a t ih =>
      simp only [findSub] at h
      split at h
      · cases h
      · rename_i hp
        have hm : findSub t pat = none := by
          cases hm : findSub t pat with
          | none => rfl
          | some j0 => rw [hm] at h; simp at h
        cases j with
        | zero =>
          simp only [List.drop_zero]
          intro hpre
          exact hp (isPrefixOf_eq_true_iff.mpr hpre)
        | succ j' =>
          have := ih hm j'
          simpa using this
  · intro h
    cases hm : findSub hay pat with
    | none => rfl
    | some k => exact absurd (findSub_some_occurrence hm) (h k)

theorem infix_iff_exists_drop {pat L : Bytes} :
    pat <:+: L ↔ ∃ j, pat <+: L.drop j := by
  constructor
  · rintro ⟨s, t, rfl⟩
    exact ⟨s.length, by simp [List.drop_left]⟩
  · rintro ⟨j, t, ht⟩
    exact ⟨L.take j, t, by rw [List.append_assoc, ht, List.take_append_drop]⟩

theorem findSub_none_of_no_occurrence {hay pat : Bytes} (h : ¬ pat <:+: hay) :
    findSub hay pat = none := by
  rw [findSub_none_iff]
  intro j hpre
  exact h (infix_iff_exists_drop.mpr ⟨j, hpre⟩)

theorem not_infix_of_findSub_none {hay pat : Bytes}
    (h : findSub hay pat = none) : ¬ pat <:+: hay := by
  intro hinf
  obtain ⟨j, hj⟩ := infix_iff_exists_drop.mp hinf
  exact (findSub_none_iff.mp h j) hj

theorem prefix_of_append_of_length_le {p a b : Bytes}
    (h : p <+: a ++ b) (hl : p.length ≤ a.length) : p <+: a := by
  have := List.prefix_iff_eq_take.mp h
  rw [List.take_append_of_le_length hl] at this
  rw [this]
  exact List.take_prefix _ _


-- ### Helper lemmas about event traces and the drain loop

theorem writtenOf_nil : writtenOf [] = [] := rfl

theorem writtenOf_cons (e : Ev) (t : List Ev) :
    writtenOf (e :: t) =
      (match e with | Ev.write bs => bs ++ writtenOf t | _ => writtenOf t) := by
  cases e <;> rfl

theorem writtenOf_cons_recv (n : Nat) (t : List Ev) :
    writtenOf (Ev.recv n :: t) = writtenOf t := rfl

theorem writtenOf_cons_write (bs : Bytes) (t : List Ev) :
    writtenOf (Ev.write bs :: t) = bs ++ writtenOf t := rfl

theorem writtenOf_append (s t : List Ev) :
    writtenOf (s ++ t) = writtenOf s ++ writtenOf t := by
  induction s with
  | nil => rfl
  | cons e s ih =>
    rw [List.cons_append, writtenOf_cons, writtenOf_cons]
    cases e <;> simp [ih]

theorem openedWb_append (s t : List Ev) :
    openedWb (s ++ t) = (openedWb s || openedWb t) := by
  simp [openedWb, List.any_append]

theorem recvCount_append (s t : List Ev) :
    recvCount (s ++ t) = recvCount s + recvCount t := by
  simp [recvCount, List.countP_append]

theorem drainLoop_complete (dr : List Nat) : ∀ (rem : Int), 0 ≤ rem →
    rem.toNat ≤ dr.length → (∀ r ∈ dr, 0 < r) → (drainLoop rem dr).1 = 0 := by
  induction dr with
  | nil =>
    intro rem h0 hlen _
    simp only [drainLoop]
    show rem = 0
    simp only [List.length_nil, Nat.le_zero] at hlen
    omega
  | cons r rs ih =>
    intro rem h0 hlen hpos
    simp only [drainLoop]
    by_cases hr : rem ≤ 0
    · rw [if_pos hr]; omega
    · rw [if_neg hr]
      have hrpos : 0 < r := hpos r (List.mem_cons_self r rs)
      rw [if_neg (by omega)]
      apply ih
      · omega
      · simp only [List.length_cons] at hlen
        omega
      · intro x hx; exact hpos x (List.mem_cons_of_mem _ hx)

theorem drainLoop_evs_drain (rem : Int) (dr : List Nat) :
    ∀ e ∈ (drainLoop rem dr).2, ∃ n, e = Ev.drainRecv n := by
  induction dr generalizing rem with
  | nil => intro e he; simp [drainLoop] at he
  | cons r rs ih =>
    intro e he
    simp only [drainLoop] at he
    split at he
    · simp at he
    · split at he
      · simp at he
      · simp only [List.mem_cons] at he
        rcases he with rfl | he
        · exact ⟨r, rfl⟩
        · exact ih _ e he

theorem writtenOf_drainLoop (rem : Int) (dr : List Nat) :
    writtenOf (drainLoop rem dr).2 = [] := by
  induction dr generalizing rem with
  | nil => rfl
  | cons r rs ih =>
    simp only [drainLoop]
    split
    · rfl
    · split
      · rfl
      · rw [writtenOf_cons]; exact ih _

theorem openedWb_drainLoop (rem : Int) (dr : List Nat) :
    openedWb (drainLoop rem dr).2 = false := by
  rw [openedWb, List.any_eq_false]
  intro e he
  obtain ⟨n, rfl⟩ := drainLoop_evs_drain rem dr e he
  simp

theorem recvCount_drainLoop (rem : Int) (dr : List Nat) :
    recvCount (drainLoop rem dr).2 = 0 := by
  rw [recvCount, List.countP_eq_zero]
  intro e he
  obtain ⟨n, rfl⟩ := drainLoop_evs_drain rem dr e he
  simp

/-- When `remaining ≤ 0` the receive loop exits immediately. -/
theorem uploadLoop_exit (B : Bytes) (fe ow fok : Bool) (dr : List Nat)
    (st : LoopSt) (rem : Int) (cs : List Bytes) (h : rem ≤ 0) :
    uploadLoop B fe ow fok dr st rem cs = ⟨.finished st, [], cs, rem⟩ := by
  cases cs with
  | nil => simp only [uploadLoop]; rw [if_pos h]
  | cons c cs => simp only [uploadLoop]; rw [if_pos h]

-- ### C10: zero or negative Content-Length

/-- C10: for every POST to `/upload` whose declared Content-Length is zero or
negative, `upload_post_handler` sends a JSON response with status "error"
without reading any body bytes, without allocating the chunk buffer, and
without creating or modifying any file on storage. -/
theorem upload_rejects_nonpositive_content_length
    (contentLen : Int) (ctHdr : Option Bytes) (fe ow fok : Bool)
    (chunks : List Bytes) (dr : List Nat) (old : Option Bytes)
    (h : contentLen ≤ 0) :
    (uploadHandler contentLen ctHdr fe ow fok chunks dr).resp =
      ⟨false, JStatus.error, none⟩ ∧
    recvCount (uploadHandler contentLen ctHdr fe ow fok chunks dr).trace = 0 ∧
    Ev.allocBuf ∉ (uploadHandler contentLen ctHdr fe ow fok chunks dr).trace ∧
    openedWb (uploadHandler contentLen ctHdr fe ow fok chunks dr).trace = false ∧
    writtenOf (uploadHandler contentLen ctHdr fe ow fok chunks dr).trace = [] ∧
    (uploadHandler contentLen ctHdr fe ow fok chunks dr).leftover = chunks ∧
    fileAfter (uploadHandler contentLen ctHdr fe ow fok chunks dr) old = old := by
  have e : uploadHandler contentLen ctHdr fe ow fok chunks dr =
      ⟨⟨false, JStatus.error, none⟩, [Ev.respond], chunks, none⟩ := by
    simp only [uploadHandler]
    rw [if_pos h]
  have etr : (uploadHandler contentLen ctHdr fe ow fok chunks dr).trace =
      [Ev.respond] := by rw [e]
  refine ⟨by rw [e], ?_, ?_, ?_, ?_, by rw [e], ?_⟩
  · rw [etr]; decide
  · rw [etr]; decide
  · rw [etr]; decide
  · rw [etr]; decide
  · rw [fileAfter, etr]
    simp [openedWb]

/-- Witness for C10 at Content-Length 0. -/
theorem upload_rejects_nonpositive_content_length_witness :
    ((0 : Int) ≤ 0) ∧
    (uploadHandler 0 none false false false [] [] ).resp =
      ⟨false, JStatus.error, none⟩ :=
  ⟨by decide,
    (upload_rejects_nonpositive_content_length 0 none false false false [] []
      none (by decide)).1⟩

-- ### C7: locating the boundary terminates the receive loop

/-- All events emitted by one `streamEvents` call are writes. -/
theorem streamEvents_writes (B c : Bytes) :
    ∀ e ∈ (streamEvents B c).1, isWriteEv e = true := by
  intro e he
  cases hocc : findSub (cstr c) B with
  | some k =>
    simp only [streamEvents, hocc] at he
    split at he
    · simp at he
      rw [he]; rfl
    · simp at he
  | none =>
    simp only [streamEvents, hocc] at he
    split at he
    · simp at he
      rw [he]; rfl
    · simp at he

/-- No receive events are ever emitted by `streamEvents` (writes only). -/
theorem streamEvents_not_recv (B c : Bytes) :
    ∀ e ∈ (streamEvents B c).1,
      (match e with | Ev.recv _ => true | _ => false) = false := by
  intro e he
  have hw := streamEvents_writes B c e he
  cases e <;> simp_all [isWriteEv]

/-- C7: in every execution of the upload receive loop, the instant the
boundary token is located in a chunk — whether in the data region that
follows the CRLFCRLF separator of the first data-bearing chunk (lines
1547-1567, including the path that extracts the filename in that same
chunk) or in a whole subsequent chunk (lines 1628-1647) — the `remaining`
counter is forced to zero regardless of how many body bytes the transport
still declares outstanding, no further receive is made for this body, and
the loop exits normally with the later chunks unconsumed. -/
theorem boundary_found_stops_receiving
    (B : Bytes) (fe ow fok : Bool) (dr : List Nat) (st : LoopSt)
    (rem : Int) (c : Bytes) (cs : List Bytes)
    (hrem : 0 < rem)
    (hloc :
      (st.dataStarted = true ∧ (findSub (cstr c) B).isSome = true) ∨
      (∃ p, st.dataStarted = false ∧ st.filename.isSome = true ∧
        findSub (cstr c) sepCRLF2 = some p ∧
        (findSub (cstr (c.drop (p + 4))) B).isSome = true) ∨
      (∃ p fn, st.dataStarted = false ∧ st.filename = none ∧
        parseFilename c = .ok fn ∧ (fe && !ow) = false ∧ fok = true ∧
        findSub (cstr c) sepCRLF2 = some p ∧
        (findSub (cstr (c.drop (p + 4))) B).isSome = true)) :
    (uploadLoop B fe ow fok dr st rem (c :: cs)).leftover = cs ∧
    (uploadLoop B fe ow fok dr st rem (c :: cs)).remFinal = 0 ∧
    recvCount (uploadLoop B fe ow fok dr st rem (c :: cs)).evs = 1 ∧
    ∃ st', (uploadLoop B fe ow fok dr st rem (c :: cs)).out
      = .finished st' := by
  have hne : ¬ rem ≤ 0 := by omega
  have hmax : max (0 - (c.length : Int)) 0 = 0 := by
    rw [max_eq_right]; omega
  have hrw := uploadLoop_exit B fe ow fok dr st 0 cs (by omega)
  rcases hloc with ⟨hds, hbf⟩ | ⟨p, hds, hfns, hsepf, hbf⟩ |
    ⟨p, fn, hds, hfn, hparse, hOvF, hfok, hsepf, hbf⟩
  · obtain ⟨k, hf⟩ := Option.isSome_iff_exists.mp hbf
    cases hfd : st.fdOpen with
    | true =>
      have hse : streamEvents B c =
          ((if 0 < trimLen k c then [Ev.write (c.take (trimLen k c))] else []),
            true) := by
        simp only [streamEvents, hf]
      by_cases hn : 0 < trimLen k c <;>
        simp [uploadLoop, hne, hds, hfd, hse, hmax, hrw, recvCount, hn,
          List.countP_cons, List.countP_append]
    | false =>
      simp [uploadLoop, hne, hds, hfd, hf, hmax, hrw, recvCount,
        List.countP_cons, List.countP_append]
  · obtain ⟨fn, hfn⟩ := Option.isSome_iff_exists.mp hfns
    obtain ⟨k, hk⟩ := Option.isSome_iff_exists.mp hbf
    cases hfd : st.fdOpen with
    | true =>
      have hsp : sepPhase B st c =
          .cont (streamEvents B (c.drop (p + 4))).1 true
            (streamEvents B (c.drop (p + 4))).2 := by
        simp only [sepPhase, hsepf, hfd, hfns]
        simp
      have hse2 : (streamEvents B (c.drop (p + 4))).2 = true := by
        simp only [streamEvents, hk]
      have hrw2 := uploadLoop_exit B fe ow fok dr ⟨some fn, true, true⟩ 0 cs
        (le_refl 0)
      refine ⟨?_, ?_, ?_, { st with dataStarted := true }, ?_⟩
      · simp [uploadLoop, hne, hds, hfn, hfd, hsp, hse2, hmax, hrw2]
      · simp [uploadLoop, hne, hds, hfn, hfd, hsp, hse2, hmax, hrw2]
      · simp [uploadLoop, hne, hds, hfn, hfd, hsp, hse2, hmax, hrw2,
          recvCount_append, recvCount, List.countP_cons]
        intro a ha
        have hw := streamEvents_writes B _ a ha
        cases a <;> simp_all [isWriteEv]
      · simp [uploadLoop, hne, hds, hfn, hfd, hsp, hse2, hmax, hrw2]
    | false =>
      have hsp : sepPhase B st c = .cont [] true true := by
        simp only [sepPhase, hsepf, hfd, hfns, hk]
        simp
      have hrw2 := uploadLoop_exit B fe ow fok dr ⟨some fn, false, true⟩ 0 cs
        (le_refl 0)
      refine ⟨?_, ?_, ?_, { st with dataStarted := true }, ?_⟩ <;>
        simp [uploadLoop, hne, hds, hfn, hfd, hsp, hmax, hrw2, recvCount,
          List.countP_cons]
  · subst hfok
    obtain ⟨k, hk⟩ := Option.isSome_iff_exists.mp hbf
    have hsp : sepPhase B ⟨some fn, true, false⟩ c =
        .cont (streamEvents B (c.drop (p + 4))).1 true
          (streamEvents B (c.drop (p + 4))).2 := by
      simp only [sepPhase, hsepf]
      rfl
    have hse2 : (streamEvents B (c.drop (p + 4))).2 = true := by
      simp only [streamEvents, hk]
    have hrw3 := uploadLoop_exit B fe ow true dr ⟨some fn, true, true⟩ 0 cs
      (le_refl 0)
    refine ⟨?_, ?_, ?_, ⟨some fn, true, true⟩, ?_⟩
    · simp [uploadLoop, hne, hds, hfn, hparse, hOvF, hsp, hse2, hmax, hrw3]
    · simp [uploadLoop, hne, hds, hfn, hparse, hOvF, hsp, hse2, hmax, hrw3]
    · simp [uploadLoop, hne, hds, hfn, hparse, hOvF, hsp, hse2, hmax, hrw3,
        recvCount_append, recvCount, List.countP_cons]
      intro a ha
      have hw := streamEvents_writes B _ a ha
      cases a <;> simp_all [isWriteEv]
    · simp [uploadLoop, hne, hds, hfn, hparse, hOvF, hsp, hse2, hmax, hrw3]

/-- Witness for C7 at the boundary-in-first-data-chunk site: the whole part
arrives in one chunk while the transport still declares 1000 bytes
outstanding and another chunk is queued; the queued chunk is never read. -/
theorem boundary_found_stops_receiving_witness :
    findSub (cstr (ascii "--X\r\nContent-Disposition: form-data; name=\"filetoupload\"; filename=\"a.txt\"\r\n\r\nhello\r\n--X--\r\n"))
      sepCRLF2 = some 74 ∧
    (uploadLoop (ascii "--X") false false true [] ⟨none, false, false⟩ 1000
      [ascii "--X\r\nContent-Disposition: form-data; name=\"filetoupload\"; filename=\"a.txt\"\r\n\r\nhello\r\n--X--\r\n",
       ascii "zzz"]).leftover = [ascii "zzz"] :=
  ⟨by decide,
    (boundary_found_stops_receiving (ascii "--X") false false true []
      ⟨none, false, false⟩ 1000
      (ascii "--X\r\nContent-Disposition: form-data; name=\"filetoupload\"; filename=\"a.txt\"\r\n\r\nhello\r\n--X--\r\n")
      [ascii "zzz"] (by decide)
      (Or.inr (Or.inr ⟨74, ascii "a.txt", rfl, rfl, by decide, by decide, rfl,
        by decide, by decide⟩))).1⟩

-- ### C2: conflict without overwrite

/-- C2: for every upload whose extracted filename maps to an existing path
and whose request does not carry `overwrite=true`, `upload_post_handler`
produces HTTP 409 with JSON status "conflict" carrying the filename, never
opens the destination file (so the existing bytes are unchanged), and drains
all remaining declared body bytes from the transport before responding. -/
theorem upload_conflict_no_overwrite
    (contentLen : Int) (h c0 : Bytes) (ib : Nat) (rest : List Bytes)
    (fn : Bytes) (fok : Bool) (dr : List Nat) (old : Bytes)
    (hcl : 0 < contentLen)
    (hct : findSub (cstr h) (ascii "boundary=") = some ib)
    (hblen : 2 + ((cstr h).drop (ib + 9)).length < 128)
    (hparse : parseFilename c0 = .ok fn)
    (hdr : ∀ r ∈ dr, 0 < r)
    (hdrlen : contentLen.toNat ≤ dr.length) :
    (uploadHandler contentLen (some h) true false fok (c0 :: rest) dr).resp =
      ⟨true, JStatus.conflict, some fn⟩ ∧
    openedWb (uploadHandler contentLen (some h) true false fok (c0 :: rest) dr).trace
      = false ∧
    writtenOf (uploadHandler contentLen (some h) true false fok (c0 :: rest) dr).trace
      = [] ∧
    (uploadHandler contentLen (some h) true false fok (c0 :: rest) dr).drainLeft
      = some 0 ∧
    fileAfter (uploadHandler contentLen (some h) true false fok (c0 :: rest) dr)
      (some old) = some old := by
  have hne : ¬ contentLen ≤ 0 := by omega
  have hbne : ¬ 128 ≤ 2 + ((cstr h).drop (ib + 9)).length := by omega
  have eLoop : uploadLoop ([45, 45] ++ (cstr h).drop (ib + 9)) true false fok dr
      ⟨none, false, false⟩ contentLen (c0 :: rest) =
      ⟨.conflicted fn (drainLoop contentLen dr).1 ⟨some fn, false, false⟩,
        Ev.recv c0.length :: (drainLoop contentLen dr).2, rest, contentLen⟩ := by
    simp [uploadLoop, hne, hparse]
  have eH : uploadHandler contentLen (some h) true false fok (c0 :: rest) dr =
      ⟨⟨true, JStatus.conflict, some fn⟩,
        Ev.allocBuf :: (Ev.recv c0.length :: (drainLoop contentLen dr).2) ++
          closeEvs ⟨some fn, false, false⟩ ++ [Ev.respond],
        rest, some (drainLoop contentLen dr).1⟩ := by
    simp only [uploadHandler, hct]
    rw [if_neg hne, if_neg hbne]
    simp only [eLoop]
  have htr : (uploadHandler contentLen (some h) true false fok (c0 :: rest) dr).trace
      = [Ev.allocBuf, Ev.recv c0.length] ++ (drainLoop contentLen dr).2 ++
        [Ev.respond] := by
    rw [eH]
    simp [closeEvs]
  have hopen : openedWb
      (uploadHandler contentLen (some h) true false fok (c0 :: rest) dr).trace
      = false := by
    rw [htr, openedWb_append, openedWb_append, openedWb_drainLoop]
    rfl
  refine ⟨by rw [eH], hopen, ?_, ?_, ?_⟩
  · rw [htr, writtenOf_append, writtenOf_append, writtenOf_drainLoop]
    rfl
  · rw [eH]
    simp only [HRes.drainLeft]
    rw [drainLoop_complete dr contentLen (by omega) hdrlen hdr]
  · rw [fileAfter, hopen]
    simp

/-- Witness for C2: the spec's example body posted against an existing
`a.txt` without `overwrite=true`. -/
theorem upload_conflict_no_overwrite_witness :
    parseFilename (ascii "--X\r\nContent-Disposition: form-data; name=\"f\"; filename=\"a.txt\"\r\n\r\nhi\r\n--X--\r\n")
      = .ok (ascii "a.txt") ∧
    (uploadHandler 90 (some (ascii "multipart/form-data; boundary=X")) true false
      true [ascii "--X\r\nContent-Disposition: form-data; name=\"f\"; filename=\"a.txt\"\r\n\r\nhi\r\n--X--\r\n"]
      (List.replicate 90 1)).resp = ⟨true, JStatus.conflict, some (ascii "a.txt")⟩ :=
  ⟨by decide,
    (upload_conflict_no_overwrite 90 (ascii "multipart/form-data; boundary=X")
      (ascii "--X\r\nContent-Disposition: form-data; name=\"f\"; filename=\"a.txt\"\r\n\r\nhi\r\n--X--\r\n")
      21 [] (ascii "a.txt") true (List.replicate 90 1) []
      (by decide) (by decide) (by decide) (by decide)
      (by intro r hr; simp at hr; omega) (by decide)).1⟩

-- ### C6: path sanitisation in `build_filepath`

/-- Each iteration of the sanitisation loop removes exactly two `'.'` bytes,
so `s.length` iterations of fuel always suffice: the result contains no
`".."`. -/
theorem sanitizeFuel_no_dotdot :
    ∀ (fuel : Nat) (s : Bytes), s.count 46 ≤ 2 * fuel →
      ¬ [46, 46] <:+: sanitizeFuel fuel s := by
  intro fuel
  induction fuel with
  | zero =>
    intro s hc hinf
    simp only [sanitizeFuel] at hinf
    have h46 : (46 : Nat) ∈ s := hinf.sublist.mem (by decide)
    have hz : s.count 46 = 0 := by omega
    rw [List.count_eq_zero] at hz
    exact hz h46
  | succ fuel ih =>
    intro s hc hinf
    simp only [sanitizeFuel] at hinf
    cases hf : findSub s [46, 46] with
    | none =>
      rw [hf] at hinf
      exact not_infix_of_findSub_none hf hinf
    | some p =>
      rw [hf] at hinf
      obtain ⟨t, ht⟩ := findSub_some_occurrence hf
      have htt : t = s.drop (p + 2) := by
        have h2 := congrArg (List.drop 2) ht
        simpa [List.drop_drop] using h2
      have hsplit : s = s.take p ++ ([46, 46] ++ t) := by
        rw [ht, List.take_append_drop]
      have e1 : s.count 46 = (s.take p).count 46 + 2 + (s.drop (p + 2)).count 46 := by
        conv_lhs => rw [hsplit]
        rw [List.count_append, List.count_append, ← htt]
        simp
        omega
      have e2 : (s.take p ++ [95, 95] ++ s.drop (p + 2)).count 46 =
          (s.take p).count 46 + (s.drop (p + 2)).count 46 := by
        rw [List.count_append, List.count_append]
        simp
      exact ih _ (by omega) hinf

/-- C6: for every mount-point prefix and every filename (including names
containing `../../etc/passwd`), the path produced by `build_filepath`
contains no `".."` substring: every occurrence is replaced by `"__"` by
literal substitution, with no canonicalisation. -/
theorem build_filepath_no_dotdot (path1 path2 : Bytes) :
    ¬ [46, 46] <:+: build_filepath path1 path2 := by
  apply sanitizeFuel_no_dotdot
  have := List.count_le_length 46 ((cstr path1 ++ [47] ++ cstr path2).take 255)
  omega

-- ### C9: the per-row URL encoder

/-- Every escape produced by `encChar` has at most three bytes. -/
theorem encChar_length_le (c : Nat) : (encChar c).length ≤ 3 := by
  unfold encChar
  split_ifs <;> simp

/-- With names of at most 255 bytes (the size of `dirent.d_name` minus the
terminator) the 765-byte output bound is never hit, so the loop encodes every
character. -/
theorem urlEncodeGo_complete :
    ∀ (l : Bytes) (outLen : Nat), l.length ≤ 255 →
      outLen ≤ 3 * (255 - l.length) →
      urlEncodeGo l outLen = (l.map encChar).flatten := by
  intro l
  induction l with
  | nil => intro _ _ _; rfl
  | cons c rest ih =>
    intro outLen hlen hout
    simp only [urlEncodeGo]
    have hc3 := encChar_length_le c
    simp only [List.length_cons] at hout
    have hl : rest.length + 1 ≤ 255 := by simpa using hlen
    rw [if_pos (by omega)]
    rw [ih (outLen + (encChar c).length) (by omega) (by omega)]
    simp

/-- C9: for every filename emitted into a generated download or delete link,
the per-row URL encoder percent-encodes exactly the characters space, `(`,
`)`, `&`, `=`, `?`, `/`, mapping each to its two-digit hex escape, and
copies every other character through unchanged. -/
theorem url_encoder_reserved_set (name : Bytes)
    (hnul : 0 ∉ name) (hlen : name.length ≤ 255) :
    urlEncodeFilename name = (name.map encChar).flatten ∧
    encChar 32 = ascii "%20" ∧ encChar 40 = ascii "%28" ∧
    encChar 41 = ascii "%29" ∧ encChar 38 = ascii "%26" ∧
    encChar 61 = ascii "%3D" ∧ encChar 63 = ascii "%3F" ∧
    encChar 47 = ascii "%2F" ∧
    (∀ c, c ∉ ([32, 40, 41, 38, 61, 63, 47] : Bytes) → encChar c = [c]) := by
  refine ⟨?_, by decide, by decide, by decide, by decide, by decide, by decide,
    by decide, ?_⟩
  · rw [urlEncodeFilename, cstr_eq_self hnul]
    exact urlEncodeGo_complete name 0 hlen (by omega)
  · intro c hc
    unfold encChar
    split_ifs with h1 h2 h3 h4 h5 h6 h7
    · exact absurd (by simp [h1]) hc
    · exact absurd (by simp [h2]) hc
    · exact absurd (by simp [h3]) hc
    · exact absurd (by simp [h4]) hc
    · exact absurd (by simp [h5]) hc
    · exact absurd (by simp [h6]) hc
    · exact absurd (by simp [h7]) hc
    · rfl

/-- Witness for C9 on the name `a b(1).txt`. -/
theorem url_encoder_reserved_set_witness :
    (0 ∉ ascii "a b(1).txt") ∧ (ascii "a b(1).txt").length ≤ 255 ∧
    urlEncodeFilename (ascii "a b(1).txt") =
      ((ascii "a b(1).txt").map encChar).flatten :=
  ⟨by decide, by decide,
    (url_encoder_reserved_set (ascii "a b(1).txt") (by decide) (by decide)).1⟩

-- ### Occurrence lemmas for the boundary search

/-- If no occurrence of `B` starts before `pre.length` in `pre ++ B ++ post`,
then the C-string search of the chunk finds `B` exactly at `pre.length`. -/
theorem findSub_at_of_no_early {B pre post : Bytes}
    (hBnul : 0 ∉ B) (hpre : 0 ∉ pre)
    (hNoEarly : ∀ j, j < pre.length → ¬ B <+: (pre ++ B ++ post).drop j) :
    findSub (cstr (pre ++ B ++ post)) B = some pre.length := by
  have hcs : cstr (pre ++ B ++ post) = pre ++ B ++ cstr post := by
    rw [List.append_assoc, cstr_append hpre, cstr_append hBnul,
      ← List.append_assoc]
  rw [hcs]
  apply findSub_eq_some_of
  · rw [List.append_assoc, List.drop_left]
    exact List.prefix_append B (cstr post)
  · intro j hj hpref
    apply hNoEarly j hj
    rw [List.append_assoc] at hpref ⊢
    rw [List.drop_append_of_le_length (by omega)] at hpref ⊢
    rw [← List.append_assoc] at hpref
    have hb : B <+: pre.drop j ++ B :=
      prefix_of_append_of_length_le hpref (by simp)
    calc B <+: pre.drop j ++ B := hb
      _ <+: (pre.drop j ++ B) ++ post := List.prefix_append _ _
      _ = pre.drop j ++ (B ++ post) := List.append_assoc _ _ _

/-- When `B` contains neither CR nor LF and does not occur inside `ls`, no
occurrence of `B` in `ls ++ CRLF ++ B ++ post` starts before the CRLF ends. -/
theorem no_early_occurrence_crlf {B ls post : Bytes}
    (hB : B ≠ []) (hcr : 13 ∉ B) (hlf : 10 ∉ B) (hnoB : ¬ B <:+: ls) :
    ∀ j, j < (ls ++ [13, 10]).length →
      ¬ B <+: ((ls ++ [13, 10]) ++ B ++ post).drop j := by
  intro j hj hpref
  have hL : (ls ++ [13, 10]) ++ B ++ post = ls ++ (13 :: 10 :: (B ++ post)) := by
    simp
  rw [hL] at hpref
  simp only [List.length_append, List.length_cons, List.length_nil] at hj
  by_cases hjl : j ≤ ls.length
  · rw [List.drop_append_of_le_length hjl] at hpref
    by_cases hlen : B.length ≤ (ls.drop j).length
    · have hBls : B <+: ls.drop j := prefix_of_append_of_length_le hpref hlen
      exact hnoB (infix_iff_exists_drop.mpr ⟨j, hBls⟩)
    · obtain ⟨t, ht⟩ := hpref
      have h13 : (13 : Nat) ∈ B := by
        have hi : (ls.drop j).length < B.length := by omega
        have e1 : (B ++ t)[(ls.drop j).length]? = B[(ls.drop j).length]? :=
          List.getElem?_append_left hi
        have e2 : (ls.drop j ++ (13 :: 10 :: (B ++ post)))[(ls.drop j).length]? =
            some 13 := by
          rw [List.getElem?_append_right (le_refl _)]
          simp
        rw [ht] at e1
        exact List.getElem?_mem (e1.symm.trans e2)
      exact hcr h13
  · have hje : j = ls.length + 1 := by omega
    subst hje
    rw [List.drop_append] at hpref
    cases B with
    | nil => exact hB rfl
    | cons b B' =>
      obtain ⟨t, ht⟩ := hpref
      simp only [List.cons_append, List.drop_succ_cons, List.drop_zero,
        List.cons.injEq] at ht
      exact hlf (by simp [ht.1])

-- ### C5: the boundary trim rule

/-- A non-empty list is its `dropLast` plus its last element (as `getD`). -/
theorem eq_dropLast_append_getD {l : Bytes} (h : l ≠ []) :
    l = l.dropLast ++ [l.getD (l.length - 1) 0] := by
  have hlt : l.length - 1 < l.length := by
    have := List.length_pos.mpr h
    omega
  rw [List.getD_eq_getElem l 0 hlt, ← List.getLast_eq_getElem l h,
    List.dropLast_concat_getLast h]

theorem getD_concat_pair_last (q : Bytes) (x y : Nat) :
    (q ++ [x, y]).getD ((q ++ [x, y]).length - 1) 0 = y := by
  have e : (q ++ [x, y]).length - 1 = q.length + 1 := by simp
  rw [e, List.getD_append_right q [x, y] 0 (q.length + 1) (by omega)]
  simp

theorem getD_concat_pair_penult (q : Bytes) (x y : Nat) :
    (q ++ [x, y]).getD ((q ++ [x, y]).length - 2) 0 = x := by
  have e : (q ++ [x, y]).length - 2 = q.length := by simp
  rw [e, List.getD_append_right q [x, y] 0 q.length (le_refl _)]
  simp

theorem getD_concat_single_last (q : Bytes) (y : Nat) :
    (q ++ [y]).getD ((q ++ [y]).length - 1) 0 = y := by
  have e : (q ++ [y]).length - 1 = q.length := by simp
  rw [e, List.getD_append_right q [y] 0 q.length (le_refl _)]
  simp

/-- C5: whenever the boundary token is located inside a received byte region
(first data-bearing chunk or any later chunk, both of which go through
`streamEvents`), the payload written from it is the bytes before the
boundary minus a trailing CRLF if present, else minus a trailing LF, else
untrimmed — in particular a zero-length payload (`pre = []`, boundary right
after the separator) writes nothing while still signalling completion. -/
theorem boundary_trim_rule (B pre post : Bytes)
    (hBnul : 0 ∉ B) (hpre : 0 ∉ pre)
    (hNoEarly : ∀ j, j < pre.length → ¬ B <+: (pre ++ B ++ post).drop j) :
    (streamEvents B (pre ++ B ++ post)).2 = true ∧
    writtenOf (streamEvents B (pre ++ B ++ post)).1 = stripTrailingCRLF pre := by
  have hocc := findSub_at_of_no_early hBnul hpre hNoEarly
  have hget : ∀ i, i < pre.length →
      (pre ++ B ++ post).getD i 0 = pre.getD i 0 := by
    intro i hi
    rw [List.append_assoc]
    exact List.getD_append pre (B ++ post) 0 i hi
  have htake : ∀ n, n ≤ pre.length → (pre ++ B ++ post).take n = pre.take n := by
    intro n hn
    rw [List.append_assoc]
    exact List.take_append_of_le_length hn
  have hkey : (pre ++ B ++ post).take (trimLen pre.length (pre ++ B ++ post)) =
      stripTrailingCRLF pre := by
    by_cases h2 : [13, 10] <:+ pre
    · obtain ⟨q, hq⟩ := h2
      subst hq
      have hql : (q ++ [13, 10]).length = q.length + 2 := by simp
      have hg1 : ((q ++ [13, 10]) ++ B ++ post).getD
          ((q ++ [13, 10]).length - 1) 0 = 10 := by
        rw [hget _ (by omega)]
        exact getD_concat_pair_last q 13 10
      have hg2 : ((q ++ [13, 10]) ++ B ++ post).getD
          ((q ++ [13, 10]).length - 2) 0 = 13 := by
        rw [hget _ (by omega)]
        exact getD_concat_pair_penult q 13 10
      rw [trimLen, if_pos ⟨by omega, hg1, hg2⟩]
      have e2 : (q ++ [13, 10]).length - 2 = q.length := by simp
      rw [e2, htake _ (by omega), stripTrailingCRLF,
        if_pos ⟨q, rfl⟩, e2, List.take_left]
    · by_cases h1 : [10] <:+ pre
      · obtain ⟨q, hq⟩ := h1
        subst hq
        have hql : (q ++ [10]).length = q.length + 1 := by simp
        have hg1 : ((q ++ [10]) ++ B ++ post).getD
            ((q ++ [10]).length - 1) 0 = 10 := by
          rw [hget _ (by omega)]
          exact getD_concat_single_last q 10
        have hc1 : ¬ (2 ≤ (q ++ [10]).length ∧
            ((q ++ [10]) ++ B ++ post).getD ((q ++ [10]).length - 1) 0 = 10 ∧
            ((q ++ [10]) ++ B ++ post).getD ((q ++ [10]).length - 2) 0 = 13) := by
          rintro ⟨hk2, -, hg2⟩
          apply h2
          have hqne : q ≠ [] := by
            intro e
            rw [e] at hk2
            simp at hk2
          have hqpos := List.length_pos.mpr hqne
          have hg2' : q.getD (q.length - 1) 0 = 13 := by
            rw [hget _ (by omega)] at hg2
            have e : (q ++ [10]).length - 2 = q.length - 1 := by simp
            rw [e, List.getD_append q [10] 0 (q.length - 1) (by omega)] at hg2
            exact hg2
          refine ⟨q.dropLast, ?_⟩
          conv_rhs => rw [eq_dropLast_append_getD hqne, hg2']
          simp
        rw [trimLen, if_neg hc1, if_pos ⟨by omega, hg1⟩]
        have e1 : (q ++ [10]).length - 1 = q.length := by simp
        rw [e1, htake _ (by omega), stripTrailingCRLF, if_neg h2,
          if_pos ⟨q, rfl⟩, e1, List.take_left]
      · have hc1 : ¬ (2 ≤ pre.length ∧
            (pre ++ B ++ post).getD (pre.length - 1) 0 = 10 ∧
            (pre ++ B ++ post).getD (pre.length - 2) 0 = 13) := by
          rintro ⟨hk2, hg1, -⟩
          apply h1
          have hne : pre ≠ [] := by
            intro e; rw [e] at hk2; simp at hk2
          have hlast : pre.getD (pre.length - 1) 0 = 10 := by
            rwa [hget _ (by omega)] at hg1
          refine ⟨pre.dropLast, ?_⟩
          conv_rhs => rw [eq_dropLast_append_getD hne, hlast]
        have hc2 : ¬ (1 ≤ pre.length ∧
            (pre ++ B ++ post).getD (pre.length - 1) 0 = 10) := by
          rintro ⟨hk1, hg1⟩
          apply h1
          have hne : pre ≠ [] := by
            intro e; rw [e] at hk1; simp at hk1
          have hlast : pre.getD (pre.length - 1) 0 = 10 := by
            rwa [hget _ (by omega)] at hg1
          refine ⟨pre.dropLast, ?_⟩
          conv_rhs => rw [eq_dropLast_append_getD hne, hlast]
        rw [trimLen, if_neg hc1, if_neg hc2]
        rw [htake _ (le_refl _), List.take_length,
          stripTrailingCRLF, if_neg h2, if_neg h1]
  constructor
  · simp only [streamEvents, hocc]
  · simp only [streamEvents, hocc]
    by_cases hn : 0 < trimLen pre.length (pre ++ B ++ post)
    · rw [if_pos hn, writtenOf_cons, hkey]
      simp [writtenOf_nil]
    · rw [if_neg hn]
      have hz : trimLen pre.length (pre ++ B ++ post) = 0 := by omega
      rw [writtenOf_nil, ← hkey, hz, List.take_zero]

/-- Witness for C5: boundary `--X` preceded by `hi\r\n`. -/
theorem boundary_trim_rule_witness :
    (0 ∉ ascii "--X") ∧ (0 ∉ ascii "hi\r\n") ∧
    (∀ j, j < (ascii "hi\r\n").length →
      ¬ (ascii "--X") <+: ((ascii "hi\r\n") ++ (ascii "--X") ++ (ascii "--\r\n")).drop j) ∧
    writtenOf (streamEvents (ascii "--X")
      ((ascii "hi\r\n") ++ (ascii "--X") ++ (ascii "--\r\n"))).1 =
      stripTrailingCRLF (ascii "hi\r\n") :=
  ⟨by decide, by decide, by decide,
    (boundary_trim_rule (ascii "--X") (ascii "hi\r\n") (ascii "--\r\n")
      (by decide) (by decide) (by decide)).2⟩

-- ### C4: the message-template renderer

/-- Singleton-or-empty chunk lists flatten to the byte range they carry. -/
theorem flatten_chunk_opt (l : Bytes) :
    (((if 0 < l.length then [l] else []) : List Bytes)).flatten = l := by
  by_cases h : 0 < l.length
  · simp [h]
  · have : l = [] := by
      cases l with
      | nil => rfl
      | cons a t => simp at h
    simp [this]

/-- `renderGo` always ends with the terminating empty chunk. -/
theorem renderGo_getLast (doc : Bytes) (ps : List (Bytes × Bytes)) :
    (renderGo doc ps).getLast? = some [] := by
  induction ps generalizing doc with
  | nil =>
    rw [renderGo]
    rw [List.getLast?_append_of_ne_nil _ (by simp)]
    rfl
  | cons p ps ih =>
    obtain ⟨t, v⟩ := p
    cases hf : findSub (cstr doc) (cstr t) with
    | none =>
      simp only [renderGo, hf]
      exact ih doc
    | some k =>
      have hne : renderGo (doc.drop (k + (cstr t).length)) ps ≠ [] := by
        intro e
        have := ih (doc.drop (k + (cstr t).length))
        rw [e] at this
        simp at this
      simp only [renderGo, hf]
      rw [List.append_assoc, List.getLast?_append_of_ne_nil _ (by simp [hne]),
        List.getLast?_append_of_ne_nil _ hne]
      exact ih _

/-- Concatenating the chunks emitted by `renderGo` reproduces the spec-side
substitution, provided no NUL byte occurs in the document, the tokens or the
values (`strstr`/`strlen` then see the full byte ranges). -/
theorem renderGo_flatten (ps : List (Bytes × Bytes)) :
    ∀ (doc : Bytes), 0 ∉ doc → (∀ p ∈ ps, 0 ∉ p.1 ∧ 0 ∉ p.2) →
      (renderGo doc ps).flatten = specSubst doc ps := by
  induction ps with
  | nil =>
    intro doc hdoc _
    rw [renderGo, specSubst, List.flatten_append, flatten_chunk_opt]
    simp
  | cons p ps ih =>
    intro doc hdoc hps
    obtain ⟨t, v⟩ := p
    have ht0 : 0 ∉ t := (hps (t, v) (List.mem_cons_self _ _)).1
    have hv0 : 0 ∉ v := (hps (t, v) (List.mem_cons_self _ _)).2
    have hps' : ∀ p ∈ ps, 0 ∉ p.1 ∧ 0 ∉ p.2 :=
      fun p hp => hps p (List.mem_cons_of_mem _ hp)
    rw [renderGo, specSubst, cstr_eq_self hdoc, cstr_eq_self ht0,
      cstr_eq_self hv0]
    cases hf : findSub doc t with
    | none => exact ih doc hdoc hps'
    | some k =>
      have hdoc' : 0 ∉ doc.drop (k + t.length) :=
        fun m => hdoc (List.mem_of_mem_drop m)
      rw [List.flatten_append, List.flatten_append, flatten_chunk_opt]
      rw [ih (doc.drop (k + t.length)) hdoc' hps']
      have hk : (if 0 < k then [doc.take k] else []).flatten = doc.take k := by
        by_cases h : 0 < k
        · simp [h]
        · have : k = 0 := by omega
          simp [this]
      rw [hk]

/-- C4: for every invocation of the message-template renderer in which all
emissions succeed, the concatenation of the emitted chunks equals the
template with the tokens `%%MESSAGE_TITLE%%`, `%%MESSAGE_CLASS%%`,
`%%MESSAGE_TEXT%%`, processed in that order and each searched only in the
not-yet-emitted remainder, replaced at their first occurrence by their
values (absent tokens skipped, later duplicate occurrences left verbatim,
token-free templates emitted byte-identical), followed by a terminating
empty chunk. -/
theorem send_message_response_renders_spec (doc title cls text : Bytes)
    (hdoc : 0 ∉ doc) (ht : 0 ∉ title) (hc : 0 ∉ cls) (hx : 0 ∉ text) :
    (send_message_response doc title cls text).flatten =
      specSubst doc
        [(ascii "%%MESSAGE_TITLE%%", title), (ascii "%%MESSAGE_CLASS%%", cls),
         (ascii "%%MESSAGE_TEXT%%", text)] ∧
    (send_message_response doc title cls text).getLast? = some [] := by
  constructor
  · apply renderGo_flatten _ doc hdoc
    intro p hp
    simp only [List.mem_cons, List.not_mem_nil, or_false] at hp
    rcases hp with rfl | rfl | rfl
    · exact ⟨show (0 : Nat) ∉ ascii "%%MESSAGE_TITLE%%" by decide, ht⟩
    · exact ⟨show (0 : Nat) ∉ ascii "%%MESSAGE_CLASS%%" by decide, hc⟩
    · exact ⟨show (0 : Nat) ∉ ascii "%%MESSAGE_TEXT%%" by decide, hx⟩
  · exact renderGo_getLast doc _

/-- Witness for C4 on a small template containing all three tokens. -/
theorem send_message_response_renders_spec_witness :
    (0 ∉ ascii "<t>%%MESSAGE_TITLE%%</t><p class=%%MESSAGE_CLASS%%>%%MESSAGE_TEXT%%</p>") ∧
    (send_message_response
        (ascii "<t>%%MESSAGE_TITLE%%</t><p class=%%MESSAGE_CLASS%%>%%MESSAGE_TEXT%%</p>")
        (ascii "Hi") (ascii "ok") (ascii "Done")).flatten =
      specSubst
        (ascii "<t>%%MESSAGE_TITLE%%</t><p class=%%MESSAGE_CLASS%%>%%MESSAGE_TEXT%%</p>")
        [(ascii "%%MESSAGE_TITLE%%", ascii "Hi"),
         (ascii "%%MESSAGE_CLASS%%", ascii "ok"),
         (ascii "%%MESSAGE_TEXT%%", ascii "Done")] :=
  ⟨by decide,
    (send_message_response_renders_spec
      (ascii "<t>%%MESSAGE_TITLE%%</t><p class=%%MESSAGE_CLASS%%>%%MESSAGE_TEXT%%</p>")
      (ascii "Hi") (ascii "ok") (ascii "Done")
      (by decide) (by decide) (by decide) (by decide)).1⟩

-- ### C8: listing-buffer growth and realloc-failure behaviour

/-- Counterexample to C8 as stated: with the buffer at 2047 of 2048 bytes and
a one-byte name (estimate 355), the code grows the buffer by
`estimate + 1024 = 1379` bytes, which is not `max(needed, fixed_increment)`
under any reading of `needed` (355, 354, or the estimate itself). -/
theorem list_growth_not_max_counterexample :
    estRow (ascii "a") = 355 ∧
    2048 ≤ 2047 + estRow (ascii "a") ∧
    growCapIfNeeded 2047 (estRow (ascii "a")) 2048 - 2048 = 1379 ∧
    max (estRow (ascii "a")) 1024 = 1024 ∧
    max (2047 + estRow (ascii "a") - 2048) 1024 = 1024 ∧
    (1379 : Nat) ≠ 1024 := by decide

/-- Flattening the chunked list page: template before the placeholder, the
row buffer, template after the placeholder, and the trailing empty chunk. -/
theorem listChunks_flatten (doc rows : Bytes) (p : Nat)
    (hph : findSub (cstr doc) fileListToken = some p) :
    (listChunks doc rows).flatten = doc.take p ++ rows ++ doc.drop (p + 18) ∧
    (listChunks doc rows).getLast? = some [] := by
  constructor
  · simp only [listChunks, hph]
    rw [List.flatten_append, List.flatten_append, List.flatten_append,
      flatten_chunk_opt, flatten_chunk_opt]
    have h1 : ((if 0 < p then [doc.take p] else []) : List Bytes).flatten
        = doc.take p := by
      by_cases h : 0 < p
      · simp [h]
      · have : p = 0 := by omega
        simp [this]
    rw [h1]
    simp
  · simp only [listChunks, hph]
    rw [List.append_assoc, List.append_assoc,
      List.getLast?_append_of_ne_nil _ (by simp),
      List.getLast?_append_of_ne_nil _ (by simp),
      List.getLast?_append_of_ne_nil _ (by simp)]
    rfl

/-- C8 (amended): whenever appending a formatted row would exceed the current
capacity, the buffer is grown by `estimate + 1024` bytes (the per-row
estimate plus the fixed increment — not `max(needed, increment)`); and
whenever that reallocation fails, the builder stops accepting further rows,
truncating the listing at the rows accumulated so far, while the page is
still rendered in full around the truncated row buffer and terminated by the
final empty chunk rather than failed. -/
theorem list_realloc_failure_truncates
    (name : Bytes) (rest : List Bytes) (buf : Bytes) (cap : Nat)
    (oks : List Bool) (doc : Bytes) (p : Nat)
    (htrig : cap ≤ buf.length + estRow (cstr name))
    (hph : findSub (cstr doc) fileListToken = some p) :
    growCapIfNeeded buf.length (estRow (cstr name)) cap =
      cap + estRow (cstr name) + 1024 ∧
    listBuildGo (name :: rest) buf cap (false :: oks) = (buf, true) ∧
    (listChunks doc buf).flatten = doc.take p ++ buf ++ doc.drop (p + 18) ∧
    (listChunks doc buf).getLast? = some [] := by
  refine ⟨?_, ?_, (listChunks_flatten doc buf p hph).1,
    (listChunks_flatten doc buf p hph).2⟩
  · rw [growCapIfNeeded, if_pos htrig]
  · simp only [listBuildGo, if_pos htrig]
    rfl

/-- Witness for C8 (amended): a failed reallocation at the second row. -/
theorem list_realloc_failure_truncates_witness :
    (300 ≤ (List.replicate 10 97 : Bytes).length + estRow (cstr (ascii "a"))) ∧
    findSub (cstr (ascii "<table>%%FILE_LIST_ROWS%%</table>")) fileListToken
      = some 7 ∧
    listBuildGo [ascii "a"] (List.replicate 10 97) 300 [false]
      = (List.replicate 10 97, true) :=
  ⟨by decide, by decide,
    (list_realloc_failure_truncates (ascii "a") [] (List.replicate 10 97) 300
      [] (ascii "<table>%%FILE_LIST_ROWS%%</table>") 7
      (by decide) (by decide)).2.1⟩

-- ### The streaming phase of the upload loop (shared by C1 and C3)

/-- The trimmed prefix written for the boundary chunk
`ls ++ CRLF ++ B ++ post` is exactly `ls`. -/
theorem strip_ls_crlf (ls : Bytes) :
    stripTrailingCRLF (ls ++ [13, 10]) = ls := by
  rw [stripTrailingCRLF, if_pos ⟨ls, rfl⟩]
  have e : (ls ++ [13, 10]).length - 2 = ls.length := by simp
  rw [e, List.take_left]

/-- Once `file_data_started` holds with an open sink, feeding the loop
boundary-free NUL-free chunks followed by the boundary chunk writes exactly
the payload slices and exits with `remaining = 0` and nothing left over. -/
theorem streamLoop_payload (B : Bytes) (fe ow fok : Bool) (dr : List Nat)
    (fn : Bytes) (ls post : Bytes)
    (hB : B ≠ []) (hBnul : 0 ∉ B) (hcr : 13 ∉ B) (hlf : 10 ∉ B)
    (hls : 0 ∉ ls) (hnoB : ¬ B <:+: ls) :
    ∀ (mids : List Bytes) (rem : Int),
      (∀ c ∈ mids, 0 ∉ c ∧ ¬ B <:+: c) →
      ((mids.flatten.length : Int) + ((ls ++ [13, 10] ++ B ++ post).length : Int)
        ≤ rem) →
      ∃ evs,
        uploadLoop B fe ow fok dr ⟨some fn, true, true⟩ rem
            (mids ++ [ls ++ [13, 10] ++ B ++ post]) =
          ⟨.finished ⟨some fn, true, true⟩, evs, [], 0⟩ ∧
        writtenOf evs = mids.flatten ++ ls ∧
        (∀ e ∈ evs, isWriteEv e = true ∨ ∃ n, e = Ev.recv n) := by
  have hpre : (0 : Nat) ∉ ls ++ [13, 10] := by
    intro m
    rcases List.mem_append.mp m with m | m
    · exact hls m
    · simp at m
  have hNoEarly : ∀ j, j < (ls ++ [13, 10]).length →
      ¬ B <+: ((ls ++ [13, 10]) ++ B ++ post).drop j :=
    no_early_occurrence_crlf hB hcr hlf hnoB
  have hbt := boundary_trim_rule B (ls ++ [13, 10]) post hBnul hpre hNoEarly
  have hlast_len : ((ls ++ [13, 10] ++ B ++ post).length : Int) =
      (ls.length : Int) + 2 + B.length + post.length := by
    simp
    ring
  have hBpos : 1 ≤ B.length := List.length_pos.mpr hB
  intro mids
  induction mids with
  | nil =>
    intro rem _ hrem
    rw [List.nil_append]
    have hne : ¬ rem ≤ 0 := by
      simp only [List.flatten_nil, List.length_nil] at hrem
      omega
    have hmax : max (0 - ((ls ++ [13, 10] ++ B ++ post).length : Int)) 0 = 0 := by
      rw [max_eq_right]
      have : (0 : Int) ≤ ((ls ++ [13, 10] ++ B ++ post).length : Int) := by
        positivity
      omega
    refine ⟨Ev.recv (ls ++ [13, 10] ++ B ++ post).length ::
      ((streamEvents B (ls ++ [13, 10] ++ B ++ post)).1 ++ []), ?_, ?_, ?_⟩
    · simp only [uploadLoop, if_neg hne, hbt.1, if_true, hmax]
      simp
    · rw [writtenOf_cons, writtenOf_append, hbt.2, strip_ls_crlf, writtenOf_nil]
      simp
    · intro e he
      simp only [List.append_nil, List.mem_cons] at he
      rcases he with rfl | he
      · exact Or.inr ⟨_, rfl⟩
      · left
        cases hocc : findSub (cstr (ls ++ [13, 10] ++ B ++ post)) B with
        | none =>
          exfalso
          have h2 := hbt.1
          simp only [streamEvents, hocc] at h2
          exact absurd h2 (by decide)
        | some k =>
          simp only [streamEvents, hocc] at he
          split at he
          · simp at he
            rw [he]
            rfl
          · simp at he
  | cons c mids ih =>
    intro rem hmids hrem
    have hc0 : 0 ∉ c := (hmids c (List.mem_cons_self _ _)).1
    have hcB : ¬ B <:+: c := (hmids c (List.mem_cons_self _ _)).2
    have hmids' : ∀ x ∈ mids, 0 ∉ x ∧ ¬ B <:+: x :=
      fun x hx => hmids x (List.mem_cons_of_mem _ hx)
    have hflat : (c :: mids).flatten.length = c.length + mids.flatten.length := by
      simp
    rw [hflat] at hrem
    push_cast at hrem
    have hne : ¬ rem ≤ 0 := by
      have : (0 : Int) ≤ mids.flatten.length + post.length := by positivity
      omega
    have hnof : findSub (cstr c) B = none := by
      rw [cstr_eq_self hc0]
      exact findSub_none_of_no_occurrence hcB
    have hse1 : (streamEvents B c).1 =
        (if 0 < c.length then [Ev.write c] else []) := by
      simp only [streamEvents, hnof]
    have hse2 : (streamEvents B c).2 = false := by
      simp only [streamEvents, hnof]
    have hmax : max (rem - (c.length : Int)) 0 = rem - (c.length : Int) := by
      rw [max_eq_left]
      have : (0 : Int) ≤ mids.flatten.length + post.length := by positivity
      omega
    obtain ⟨evs, heq, hw, hcls⟩ := ih (rem - (c.length : Int)) hmids' (by omega)
    refine ⟨Ev.recv c.length :: ((if 0 < c.length then [Ev.write c] else []) ++ evs),
      ?_, ?_, ?_⟩
    · rw [List.cons_append]
      simp only [uploadLoop, if_neg hne, hse1, hse2, hmax, Bool.false_eq_true,
        if_false, heq]
      simp
    · rw [writtenOf_cons_recv, writtenOf_append, hw]
      by_cases hcl : 0 < c.length
      · rw [if_pos hcl, writtenOf_cons_write, writtenOf_nil]
        simp
      · rw [if_neg hcl]
        have hce : c = [] := by
          cases c with
          | nil => rfl
          | cons a t => simp at hcl
        rw [writtenOf_nil]
        simp [hce]
    · intro e he
      simp only [List.mem_cons, List.mem_append] at he
      rcases he with rfl | he | he
      · exact Or.inr ⟨_, rfl⟩
      · left
        split at he
        · simp at he
          rw [he]; rfl
        · simp at he
      · exact hcls e he

-- ### The header chunk and the full handler run (shared by C1 and C3)

/-- A C-string view never contains the NUL byte. -/
theorem zero_not_mem_cstr (l : Bytes) : 0 ∉ cstr l := by
  intro m
  have := List.mem_takeWhile_imp m
  simp at this

/-- When no boundary occurs in the chunk, the whole chunk is written. -/
theorem writtenOf_streamEvents_none (B c : Bytes)
    (h : findSub (cstr c) B = none) :
    writtenOf (streamEvents B c).1 = c := by
  simp only [streamEvents, h]
  by_cases hcl : 0 < c.length
  · rw [if_pos hcl, writtenOf_cons_write, writtenOf_nil, List.append_nil]
  · rw [if_neg hcl, writtenOf_nil]
    cases c with
    | nil => rfl
    | cons a t => simp at hcl

/-- Shared helper for C1 and C3: a well-formed single-part body whose
separator and boundary are not split across reads, whose payload slices are
NUL-free and boundary-free, and whose terminating boundary is preceded by
CRLF in its own chunk, makes `upload_post_handler` open the sink right after
the header chunk, write exactly the payload, and answer success. -/
theorem uploadHandler_streams
    (contentLen : Int) (h c0 : Bytes) (ib p : Nat) (fe ow : Bool)
    (dr : List Nat) (fn B : Bytes)
    (rest mids : List Bytes) (ls post P : Bytes)
    (hBdef : B = [45, 45] ++ (cstr h).drop (ib + 9))
    (hOv : fe = false ∨ ow = true)
    (hct : findSub (cstr h) (ascii "boundary=") = some ib)
    (hblen : 2 + ((cstr h).drop (ib + 9)).length < 128)
    (hcr : 13 ∉ B) (hlf : 10 ∉ B)
    (hparse : parseFilename c0 = .ok fn)
    (hsep : findSub (cstr c0) sepCRLF2 = some p)
    (hls : 0 ∉ ls) (hnoB : ¬ B <:+: ls)
    (hmids : ∀ c ∈ mids, 0 ∉ c ∧ ¬ B <:+: c)
    (hcase :
      (c0.drop (p + 4) = ls ++ [13, 10] ++ B ++ post ∧ rest = [] ∧ mids = [] ∧
        P = ls) ∨
      (0 ∉ c0.drop (p + 4) ∧ ¬ B <:+: c0.drop (p + 4) ∧
        rest = mids ++ [ls ++ [13, 10] ++ B ++ post] ∧
        P = c0.drop (p + 4) ++ (mids.flatten ++ ls)))
    (hcl : ((c0 :: rest).flatten.length : Int) ≤ contentLen) :
    ∃ wevs,
      (uploadHandler contentLen (some h) fe ow true (c0 :: rest) dr).trace =
        [Ev.allocBuf, Ev.recv c0.length, Ev.openWb] ++ wevs ++
          [Ev.closeSink, Ev.respond] ∧
      writtenOf wevs = P ∧
      (∀ e ∈ wevs, isWriteEv e = true ∨ ∃ n, e = Ev.recv n) ∧
      (uploadHandler contentLen (some h) fe ow true (c0 :: rest) dr).resp =
        ⟨false, JStatus.success, some fn⟩ ∧
      (uploadHandler contentLen (some h) fe ow true (c0 :: rest) dr).leftover
        = [] := by
  have hb0 : 0 ∉ B := by
    rw [hBdef]
    intro m
    rcases List.mem_append.mp m with m | m
    · simp at m
    · exact zero_not_mem_cstr h (List.mem_of_mem_drop m)
  have hBne : B ≠ [] := by rw [hBdef]; simp
  have hc0len : p + 4 ≤ c0.length := by
    have h0 := findSub_some_occurrence hsep
    have h1 := h0.length_le
    have htw : cstr c0 <+: c0 := List.takeWhile_prefix _
    have h2 : (cstr c0).length ≤ c0.length := htw.length_le
    simp only [List.length_drop, sepCRLF2] at h1
    simp only [List.length_cons, List.length_nil] at h1
    omega
  have hflatlen : (c0 :: rest).flatten.length =
      c0.length + rest.flatten.length := by simp
  have hne : ¬ contentLen ≤ 0 := by
    rw [hflatlen] at hcl
    push_cast at hcl
    omega
  have hbne : ¬ 128 ≤ 2 + ((cstr h).drop (ib + 9)).length := by omega
  have hOvF : (fe && !ow) = false := by
    rcases hOv with rfl | rfl <;> simp
  have hsp : sepPhase B ⟨some fn, true, false⟩ c0 =
      .cont (streamEvents B (c0.drop (p + 4))).1 true
        (streamEvents B (c0.drop (p + 4))).2 := by
    simp only [sepPhase, hsep]
    rfl
  have hpre : (0 : Nat) ∉ ls ++ [13, 10] := by
    intro m
    rcases List.mem_append.mp m with m | m
    · exact hls m
    · simp at m
  have hbt := boundary_trim_rule B (ls ++ [13, 10]) post hb0 hpre
    (no_early_occurrence_crlf hBne hcr hlf hnoB)
  rcases hcase with ⟨htail, hrest, hmids0, hP⟩ | ⟨htail0, htailB, hrest, hP⟩
  · subst hrest hP hmids0
    have hse2 : (streamEvents B (c0.drop (p + 4))).2 = true := by
      rw [htail]; exact hbt.1
    have hmax0 : max (0 - (c0.length : Int)) 0 = 0 := by
      rw [max_eq_right]; omega
    have hloop : uploadLoop B fe ow true dr ⟨none, false, false⟩ contentLen
        (c0 :: []) =
        ⟨.finished ⟨some fn, true, true⟩,
          Ev.recv c0.length :: Ev.openWb ::
            ((streamEvents B (c0.drop (p + 4))).1 ++ []),
          [], 0⟩ := by
      simp only [uploadLoop, if_neg hne, hparse, hOvF, Bool.false_eq_true,
        if_false, Bool.true_eq_false, hsp, hse2, if_true, hmax0]
      simp
    have hH : uploadHandler contentLen (some h) fe ow true (c0 :: []) dr =
        ⟨⟨false, JStatus.success, some fn⟩,
          Ev.allocBuf :: (Ev.recv c0.length :: Ev.openWb ::
            ((streamEvents B (c0.drop (p + 4))).1 ++ [])) ++
            closeEvs ⟨some fn, true, true⟩ ++ [Ev.respond],
          [], none⟩ := by
      simp only [uploadHandler, hct]
      rw [if_neg hne, if_neg hbne]
      rw [← hBdef]
      simp only [hloop]
      rfl
    refine ⟨(streamEvents B (c0.drop (p + 4))).1, ?_, ?_, ?_, ?_, ?_⟩
    · rw [hH]
      simp [closeEvs]
    · rw [htail, hbt.2, strip_ls_crlf]
    · intro e he
      exact Or.inl (streamEvents_writes B _ e he)
    · rw [hH]
    · rw [hH]
  · subst hrest hP
    have hnofound : findSub (cstr (c0.drop (p + 4))) B = none := by
      rw [cstr_eq_self htail0]
      exact findSub_none_of_no_occurrence htailB
    have hse2 : (streamEvents B (c0.drop (p + 4))).2 = false := by
      simp only [streamEvents, hnofound]
    have hlen2 : ((mids ++ [ls ++ [13, 10] ++ B ++ post]).flatten.length : Int) =
        (mids.flatten.length : Int) +
          ((ls ++ [13, 10] ++ B ++ post).length : Int) := by
      simp
    have hbound : (mids.flatten.length : Int) +
        ((ls ++ [13, 10] ++ B ++ post).length : Int) ≤
          contentLen - (c0.length : Int) := by
      rw [hflatlen] at hcl
      rw [← hlen2]
      push_cast at hcl ⊢
      omega
    obtain ⟨evs, heq, hw, hcls⟩ := streamLoop_payload B fe ow true dr fn ls post
      hBne hb0 hcr hlf hls hnoB mids (contentLen - (c0.length : Int))
      hmids hbound
    have hmaxB : max (contentLen - (c0.length : Int)) 0 =
        contentLen - (c0.length : Int) := by
      rw [max_eq_left]
      have hlp : (0 : Int) ≤ (mids.flatten.length : Int) := by positivity
      have hlq : (0 : Int) ≤ ((ls ++ [13, 10] ++ B ++ post).length : Int) := by
        positivity
      omega
    have hloop : uploadLoop B fe ow true dr ⟨none, false, false⟩ contentLen
        (c0 :: (mids ++ [ls ++ [13, 10] ++ B ++ post])) =
        ⟨.finished ⟨some fn, true, true⟩,
          Ev.recv c0.length :: Ev.openWb ::
            ((streamEvents B (c0.drop (p + 4))).1 ++ evs),
          [], 0⟩ := by
      simp only [uploadLoop, if_neg hne, hparse, hOvF, Bool.false_eq_true,
        if_false, Bool.true_eq_false, hsp, hse2, hmaxB, heq]
    have hH : uploadHandler contentLen (some h) fe ow true
        (c0 :: (mids ++ [ls ++ [13, 10] ++ B ++ post])) dr =
        ⟨⟨false, JStatus.success, some fn⟩,
          Ev.allocBuf :: (Ev.recv c0.length :: Ev.openWb ::
            ((streamEvents B (c0.drop (p + 4))).1 ++ evs)) ++
            closeEvs ⟨some fn, true, true⟩ ++ [Ev.respond],
          [], none⟩ := by
      simp only [uploadHandler, hct]
      rw [if_neg hne, if_neg hbne]
      rw [← hBdef]
      simp only [hloop]
      rfl
    refine ⟨(streamEvents B (c0.drop (p + 4))).1 ++ evs, ?_, ?_, ?_, ?_, ?_⟩
    · rw [hH]
      simp [closeEvs]
    · rw [writtenOf_append, hw, writtenOf_streamEvents_none B _ hnofound]
    · intro e he
      rcases List.mem_append.mp he with he | he
      · exact Or.inl (streamEvents_writes B _ e he)
      · exact hcls e he
    · rw [hH]
    · rw [hH]

-- ### C1: exact payload streaming (corrected)

/-- Counterexample to C1 as stated: a single-chunk body — so neither the
separator nor the boundary token is split across reads — whose one-byte
payload is the NUL byte.  The bytes between the header separator and the
terminating boundary marker minus the preceding CRLF are `[0]`, but the
handler writes `[0]` followed by the CRLF and the whole boundary marker into
the sink, because `strstr` cannot search past the NUL. -/
theorem upload_nul_payload_counterexample :
    (ascii "--X\r\nContent-Disposition: form-data; name=\"f\"; filename=\"a.txt\"\r\n\r\n"
        ++ [0] ++ ascii "\r\n--X--\r\n") =
      (ascii "--X\r\nContent-Disposition: form-data; name=\"f\"; filename=\"a.txt\"")
        ++ sepCRLF2 ++
        ([0] ++ [13, 10] ++ ascii "--X" ++ ascii "--\r\n") ∧
    writtenOf (uploadHandler
      (((ascii "--X\r\nContent-Disposition: form-data; name=\"f\"; filename=\"a.txt\"\r\n\r\n"
          ++ [0] ++ ascii "\r\n--X--\r\n").length : Int))
      (some (ascii "multipart/form-data; boundary=X")) false false true
      [ascii "--X\r\nContent-Disposition: form-data; name=\"f\"; filename=\"a.txt\"\r\n\r\n"
          ++ [0] ++ ascii "\r\n--X--\r\n"] []).trace =
      [0, 13, 10, 45, 45, 88, 45, 45, 13, 10] ∧
    ([0, 13, 10, 45, 45, 88, 45, 45, 13, 10] : Bytes) ≠ [0] := by
  refine ⟨by decide, by decide, by decide⟩

/-- C1 (amended): for every multipart body delivered as chunks in which
neither the CRLFCRLF separator nor the boundary token is split across reads,
*and additionally* the payload slices contain no NUL byte and no occurrence
of the boundary token and the CRLF preceding the terminating boundary
arrives in the same chunk as the boundary, the bytes written to the sink are
exactly the payload `P` between the separator and the boundary (minus that
CRLF), for every payload length including zero; no header byte is written. -/
theorem upload_writes_exact_payload
    (contentLen : Int) (h c0 : Bytes) (ib p : Nat) (fe ow : Bool)
    (dr : List Nat) (fn B : Bytes)
    (rest mids : List Bytes) (ls post P : Bytes)
    (hBdef : B = [45, 45] ++ (cstr h).drop (ib + 9))
    (hOv : fe = false ∨ ow = true)
    (hct : findSub (cstr h) (ascii "boundary=") = some ib)
    (hblen : 2 + ((cstr h).drop (ib + 9)).length < 128)
    (hcr : 13 ∉ B) (hlf : 10 ∉ B)
    (hparse : parseFilename c0 = .ok fn)
    (hsep : findSub (cstr c0) sepCRLF2 = some p)
    (hls : 0 ∉ ls) (hnoB : ¬ B <:+: ls)
    (hmids : ∀ c ∈ mids, 0 ∉ c ∧ ¬ B <:+: c)
    (hcase :
      (c0.drop (p + 4) = ls ++ [13, 10] ++ B ++ post ∧ rest = [] ∧ mids = [] ∧
        P = ls) ∨
      (0 ∉ c0.drop (p + 4) ∧ ¬ B <:+: c0.drop (p + 4) ∧
        rest = mids ++ [ls ++ [13, 10] ++ B ++ post] ∧
        P = c0.drop (p + 4) ++ (mids.flatten ++ ls)))
    (hcl : ((c0 :: rest).flatten.length : Int) ≤ contentLen) :
    writtenOf (uploadHandler contentLen (some h) fe ow true (c0 :: rest) dr).trace
      = P ∧
    (uploadHandler contentLen (some h) fe ow true (c0 :: rest) dr).resp =
      ⟨false, JStatus.success, some fn⟩ ∧
    (uploadHandler contentLen (some h) fe ow true (c0 :: rest) dr).leftover
      = [] := by
  obtain ⟨wevs, htr, hw, _, hresp, hleft⟩ := uploadHandler_streams contentLen
    h c0 ib p fe ow dr fn B rest mids ls post P hBdef hOv hct hblen hcr hlf
    hparse hsep hls hnoB hmids hcase hcl
  refine ⟨?_, hresp, hleft⟩
  rw [htr, writtenOf_append, writtenOf_append, hw]
  simp [writtenOf]

/-- Witness for C1 (amended): the spec's example scenario — boundary `X`,
single-chunk body, resulting file content exactly `hello`. -/
theorem upload_writes_exact_payload_witness :
    parseFilename (ascii "--X\r\nContent-Disposition: form-data; name=\"filetoupload\"; filename=\"a.txt\"\r\n\r\nhello\r\n--X--\r\n")
      = .ok (ascii "a.txt") ∧
    findSub (cstr (ascii "--X\r\nContent-Disposition: form-data; name=\"filetoupload\"; filename=\"a.txt\"\r\n\r\nhello\r\n--X--\r\n"))
      sepCRLF2 = some 74 ∧
    writtenOf (uploadHandler 92 (some (ascii "multipart/form-data; boundary=X"))
      false false true
      [ascii "--X\r\nContent-Disposition: form-data; name=\"filetoupload\"; filename=\"a.txt\"\r\n\r\nhello\r\n--X--\r\n"]
      []).trace = ascii "hello" :=
  ⟨by decide, by decide,
    (upload_writes_exact_payload 92
      (ascii "multipart/form-data; boundary=X")
      (ascii "--X\r\nContent-Disposition: form-data; name=\"filetoupload\"; filename=\"a.txt\"\r\n\r\nhello\r\n--X--\r\n")
      21 74 false false [] (ascii "a.txt") (ascii "--X") [] []
      (ascii "hello") (ascii "--\r\n") (ascii "hello")
      (by decide) (Or.inl rfl) (by decide) (by decide) (by decide) (by decide)
      (by decide) (by decide) (by decide) (by decide) (by simp)
      (Or.inl ⟨by decide, rfl, rfl, rfl⟩) (by decide)).1⟩

-- ### C3: opening the sink and replacing content (corrected)

/-- Counterexample to C3 as stated: an upload squarely in the claim's scope —
the destination exists and `overwrite=true` was requested — whose one-byte
payload is NUL.  The sink is opened in `"wb"` mode and the upload reports
success, but the stored bytes afterwards are the payload followed by the CRLF
and the whole boundary marker, not the uploaded content `[0]`: the claim's
"replaces the stored bytes with the new content" fails, because `strstr`
cannot search past the NUL. -/
theorem upload_overwrite_nul_counterexample :
    (ascii "--X\r\nContent-Disposition: form-data; name=\"f\"; filename=\"b.txt\"\r\n\r\n"
        ++ [0] ++ ascii "\r\n--X--\r\n") =
      (ascii "--X\r\nContent-Disposition: form-data; name=\"f\"; filename=\"b.txt\"")
        ++ sepCRLF2 ++
        ([0] ++ [13, 10] ++ ascii "--X" ++ ascii "--\r\n") ∧
    openedWb (uploadHandler
      (((ascii "--X\r\nContent-Disposition: form-data; name=\"f\"; filename=\"b.txt\"\r\n\r\n"
          ++ [0] ++ ascii "\r\n--X--\r\n").length : Int))
      (some (ascii "multipart/form-data; boundary=X")) true true true
      [ascii "--X\r\nContent-Disposition: form-data; name=\"f\"; filename=\"b.txt\"\r\n\r\n"
          ++ [0] ++ ascii "\r\n--X--\r\n"] []).trace = true ∧
    (uploadHandler
      (((ascii "--X\r\nContent-Disposition: form-data; name=\"f\"; filename=\"b.txt\"\r\n\r\n"
          ++ [0] ++ ascii "\r\n--X--\r\n").length : Int))
      (some (ascii "multipart/form-data; boundary=X")) true true true
      [ascii "--X\r\nContent-Disposition: form-data; name=\"f\"; filename=\"b.txt\"\r\n\r\n"
          ++ [0] ++ ascii "\r\n--X--\r\n"] []).resp =
      ⟨false, JStatus.success, some (ascii "b.txt")⟩ ∧
    fileAfter (uploadHandler
      (((ascii "--X\r\nContent-Disposition: form-data; name=\"f\"; filename=\"b.txt\"\r\n\r\n"
          ++ [0] ++ ascii "\r\n--X--\r\n").length : Int))
      (some (ascii "multipart/form-data; boundary=X")) true true true
      [ascii "--X\r\nContent-Disposition: form-data; name=\"f\"; filename=\"b.txt\"\r\n\r\n"
          ++ [0] ++ ascii "\r\n--X--\r\n"] []) (some (ascii "OLD")) =
      some [0, 13, 10, 45, 45, 88, 45, 45, 13, 10] ∧
    some ([0, 13, 10, 45, 45, 88, 45, 45, 13, 10] : Bytes) ≠
      some ([0] : Bytes) := by
  refine ⟨by decide, by decide, by decide, by decide, by decide⟩

/-- C3 (amended): for every upload whose destination either does not exist
or exists with `overwrite=true` requested, *and additionally* whose payload
slices contain no NUL byte and no occurrence of the boundary token and whose
CRLF preceding the terminating boundary arrives in the same chunk as the
boundary, the handler opens the sink in truncate/write mode (`"wb"`, the
`openWb` event) before writing any payload byte, the upload succeeds, and
the stored bytes afterwards are exactly the new content — so a non-existing
name succeeds without `overwrite=true`, and `overwrite=true` replaces the
previous bytes. -/
theorem upload_opens_sink_then_writes
    (contentLen : Int) (h c0 : Bytes) (ib p : Nat) (fe ow : Bool)
    (dr : List Nat) (fn B : Bytes)
    (rest mids : List Bytes) (ls post P : Bytes) (old : Option Bytes)
    (hBdef : B = [45, 45] ++ (cstr h).drop (ib + 9))
    (hOv : fe = false ∨ ow = true)
    (hct : findSub (cstr h) (ascii "boundary=") = some ib)
    (hblen : 2 + ((cstr h).drop (ib + 9)).length < 128)
    (hcr : 13 ∉ B) (hlf : 10 ∉ B)
    (hparse : parseFilename c0 = .ok fn)
    (hsep : findSub (cstr c0) sepCRLF2 = some p)
    (hls : 0 ∉ ls) (hnoB : ¬ B <:+: ls)
    (hmids : ∀ c ∈ mids, 0 ∉ c ∧ ¬ B <:+: c)
    (hcase :
      (c0.drop (p + 4) = ls ++ [13, 10] ++ B ++ post ∧ rest = [] ∧ mids = [] ∧
        P = ls) ∨
      (0 ∉ c0.drop (p + 4) ∧ ¬ B <:+: c0.drop (p + 4) ∧
        rest = mids ++ [ls ++ [13, 10] ++ B ++ post] ∧
        P = c0.drop (p + 4) ++ (mids.flatten ++ ls)))
    (hcl : ((c0 :: rest).flatten.length : Int) ≤ contentLen) :
    (uploadHandler contentLen (some h) fe ow true (c0 :: rest) dr).resp =
      ⟨false, JStatus.success, some fn⟩ ∧
    fileAfter (uploadHandler contentLen (some h) fe ow true (c0 :: rest) dr) old
      = some P ∧
    ∃ preEvs postEvs,
      (uploadHandler contentLen (some h) fe ow true (c0 :: rest) dr).trace =
        preEvs ++ Ev.openWb :: postEvs ∧
      ∀ e ∈ preEvs, isWriteEv e = false := by
  obtain ⟨wevs, htr, hw, _, hresp, hleft⟩ := uploadHandler_streams contentLen
    h c0 ib p fe ow dr fn B rest mids ls post P hBdef hOv hct hblen hcr hlf
    hparse hsep hls hnoB hmids hcase hcl
  have hwt : writtenOf
      (uploadHandler contentLen (some h) fe ow true (c0 :: rest) dr).trace
      = P := by
    rw [htr, writtenOf_append, writtenOf_append, hw]
    simp [writtenOf]
  have hob : openedWb
      (uploadHandler contentLen (some h) fe ow true (c0 :: rest) dr).trace
      = true := by
    rw [htr, openedWb_append, openedWb_append]
    rfl
  refine ⟨hresp, ?_, ?_⟩
  · rw [fileAfter, hob, if_pos rfl, hwt]
  · refine ⟨[Ev.allocBuf, Ev.recv c0.length],
      wevs ++ [Ev.closeSink, Ev.respond], ?_, ?_⟩
    · rw [htr]
      simp
    · intro e he
      simp only [List.mem_cons, List.not_mem_nil, or_false] at he
      rcases he with rfl | rfl
      · rfl
      · rfl

/-- Witness for C3: overwrite requested on an existing file, body split into
two chunks, stored bytes replaced by `hello`. -/
theorem upload_opens_sink_then_writes_witness :
    parseFilename (ascii "--X\r\nContent-Disposition: form-data; name=\"filetoupload\"; filename=\"a.txt\"\r\n\r\nhe")
      = .ok (ascii "a.txt") ∧
    fileAfter (uploadHandler 92 (some (ascii "multipart/form-data; boundary=X"))
      true true true
      [ascii "--X\r\nContent-Disposition: form-data; name=\"filetoupload\"; filename=\"a.txt\"\r\n\r\nhe",
       ascii "llo\r\n--X--\r\n"]
      []) (some (ascii "OLDDATA")) = some (ascii "hello") :=
  ⟨by decide,
    (upload_opens_sink_then_writes 92
      (ascii "multipart/form-data; boundary=X")
      (ascii "--X\r\nContent-Disposition: form-data; name=\"filetoupload\"; filename=\"a.txt\"\r\n\r\nhe")
      21 74 true true [] (ascii "a.txt") (ascii "--X")
      [ascii "llo\r\n--X--\r\n"] [] (ascii "llo") (ascii "--\r\n")
      (ascii "hello") (some (ascii "OLDDATA"))
      (by decide) (Or.inr rfl) (by decide) (by decide) (by decide) (by decide)
      (by decide) (by decide) (by decide) (by decide) (by simp)
      (Or.inr ⟨by decide, by decide, by decide, by decide⟩)
      (by decide)).2.1⟩
